import Mathlib

/-!
Verification of the binary tower field arithmetic and tensor PCS subsystem.

The development shallowly embeds the source code:
* `src/src/field/binary_field_arithmetic.rs` — tower field multiply, square,
  multiply-by-alpha and invert, with the lookup tables at levels 1..3 and the
  Karatsuba recursion above;
* `src/crates/core/src/piop/commit.rs` — `make_oracle_commit_meta`;
* `src/src/poly_commit/tensor_pcs.rs` — `mix_t_primes`, `TensorPCS::new`,
  `prove_evaluation`, `verify_evaluation`, `check_proof_shape`.

A tower field element at level `k` is a natural number below `2 ^ 2 ^ k`,
mirroring the `u8`/`u16`/…/`u128` machine representations.  Field addition is
bitwise XOR (modelled from the spec: the `Add` impls live in
`binary_field.rs`, which is not part of the sources; the spec fixes addition
as XOR in characteristic 2).
-/

namespace Binius

/-- The packed 4-bit times 4-bit multiplication table `MUL_4B_LOOKUP`
(128 bytes, each holding two 4-bit products), transcribed from
`binary_field_arithmetic.rs`. -/
def MUL_4B_LOOKUP : List Nat := [
  0x00, 0x00, 0x00, 0x00, 0x00, 0x00, 0x00, 0x00,
  0x10, 0x32, 0x54, 0x76, 0x98, 0xba, 0xdc, 0xfe,
  0x20, 0x13, 0xa8, 0x9b, 0xec, 0xdf, 0x64, 0x57,
  0x30, 0x21, 0xfc, 0xed, 0x74, 0x65, 0xb8, 0xa9,
  0x40, 0xc8, 0xd9, 0x51, 0xae, 0x26, 0x37, 0xbf,
  0x50, 0xfa, 0x8d, 0x27, 0x36, 0x9c, 0xeb, 0x41,
  0x60, 0xdb, 0x71, 0xca, 0x42, 0xf9, 0x53, 0xe8,
  0x70, 0xe9, 0x25, 0xbc, 0xda, 0x43, 0x8f, 0x16,
  0x80, 0x4c, 0x6e, 0xa2, 0xf7, 0x3b, 0x19, 0xd5,
  0x90, 0x7e, 0x3a, 0xd4, 0x6f, 0x81, 0xc5, 0x2b,
  0xa0, 0x5f, 0xc6, 0x39, 0x1b, 0xe4, 0x7d, 0x82,
  0xb0, 0x6d, 0x92, 0x4f, 0x83, 0x5e, 0xa1, 0x7c,
  0xc0, 0x84, 0xb7, 0xf3, 0x59, 0x1d, 0x2e, 0x6a,
  0xd0, 0xb6, 0xe3, 0x85, 0xc1, 0xa7, 0xf2, 0x94,
  0xe0, 0x97, 0x1f, 0x68, 0xb5, 0xc2, 0x4a, 0x3d,
  0xf0, 0xa5, 0x4b, 0x1e, 0x2d, 0x78, 0x96, 0xc3]

/-- The 256-entry 8-bit inversion table `INVERSE_8B`, transcribed from
`binary_field_arithmetic.rs`. -/
def INVERSE_8B : List Nat := [
  0x00, 0x01, 0x03, 0x02, 0x06, 0x0e, 0x04, 0x0f,
  0x0d, 0x0a, 0x09, 0x0c, 0x0b, 0x08, 0x05, 0x07,
  0x14, 0x67, 0x94, 0x7b, 0x10, 0x66, 0x9e, 0x7e,
  0xd2, 0x81, 0x27, 0x4b, 0xd1, 0x8f, 0x2f, 0x42,
  0x3c, 0xe6, 0xde, 0x7c, 0xb3, 0xc1, 0x4a, 0x1a,
  0x30, 0xe9, 0xdd, 0x79, 0xb1, 0xc6, 0x43, 0x1e,
  0x28, 0xe8, 0x9d, 0xb9, 0x63, 0x39, 0x8d, 0xc2,
  0x62, 0x35, 0x83, 0xc5, 0x20, 0xe7, 0x97, 0xbb,
  0x61, 0x48, 0x1f, 0x2e, 0xac, 0xc8, 0xbc, 0x56,
  0x41, 0x60, 0x26, 0x1b, 0xcf, 0xaa, 0x5b, 0xbe,
  0xef, 0x73, 0x6d, 0x5e, 0xf7, 0x86, 0x47, 0xbd,
  0x88, 0xfc, 0xbf, 0x4e, 0x76, 0xe0, 0x53, 0x6c,
  0x49, 0x40, 0x38, 0x34, 0xe4, 0xeb, 0x15, 0x11,
  0x8b, 0x85, 0xaf, 0xa9, 0x5f, 0x52, 0x98, 0x92,
  0xfb, 0xb5, 0xee, 0x51, 0xb7, 0xf0, 0x5c, 0xe1,
  0xdc, 0x2b, 0x95, 0x13, 0x23, 0xdf, 0x17, 0x9f,
  0xd3, 0x19, 0xc4, 0x3a, 0x8a, 0x69, 0x55, 0xf6,
  0x58, 0xfd, 0x84, 0x68, 0xc3, 0x36, 0xd0, 0x1d,
  0xa6, 0xf3, 0x6f, 0x99, 0x12, 0x7a, 0xba, 0x3e,
  0x6e, 0x93, 0xa0, 0xf8, 0xb8, 0x32, 0x16, 0x7f,
  0x9a, 0xf9, 0xe2, 0xdb, 0xed, 0xd8, 0x90, 0xf2,
  0xae, 0x6b, 0x4d, 0xce, 0x44, 0xc9, 0xa8, 0x6a,
  0xc7, 0x2c, 0xc0, 0x24, 0xfa, 0x71, 0xf1, 0x74,
  0x9c, 0x33, 0x96, 0x3f, 0x46, 0x57, 0x4f, 0x5a,
  0xb2, 0x25, 0x37, 0x8c, 0x82, 0x3b, 0x2d, 0xb0,
  0x45, 0xad, 0xd7, 0xff, 0xf4, 0xd4, 0xab, 0x4c,
  0x8e, 0x1c, 0x18, 0x80, 0xcd, 0xf5, 0xfe, 0xca,
  0xa5, 0xec, 0xe3, 0xa3, 0x78, 0x2a, 0x22, 0x7d,
  0x5d, 0x77, 0xa2, 0xda, 0x64, 0xea, 0x21, 0x3d,
  0x31, 0x29, 0xe5, 0x65, 0xd9, 0xa4, 0x72, 0x50,
  0x75, 0xb6, 0xa7, 0x91, 0xcc, 0xd5, 0x87, 0x54,
  0x9b, 0xa1, 0xb4, 0x70, 0x59, 0x89, 0xd6, 0xcb]

/-- The 256-entry `ALPHA_MAP` used by `BinaryField8b::multiply_alpha`,
transcribed from `binary_field_arithmetic.rs`. -/
def ALPHA_MAP_8B : List Nat := [
  0x00, 0x10, 0x20, 0x30, 0x40, 0x50, 0x60, 0x70,
  0x80, 0x90, 0xa0, 0xb0, 0xc0, 0xd0, 0xe0, 0xf0,
  0x41, 0x51, 0x61, 0x71, 0x01, 0x11, 0x21, 0x31,
  0xc1, 0xd1, 0xe1, 0xf1, 0x81, 0x91, 0xa1, 0xb1,
  0x82, 0x92, 0xa2, 0xb2, 0xc2, 0xd2, 0xe2, 0xf2,
  0x02, 0x12, 0x22, 0x32, 0x42, 0x52, 0x62, 0x72,
  0xc3, 0xd3, 0xe3, 0xf3, 0x83, 0x93, 0xa3, 0xb3,
  0x43, 0x53, 0x63, 0x73, 0x03, 0x13, 0x23, 0x33,
  0x94, 0x84, 0xb4, 0xa4, 0xd4, 0xc4, 0xf4, 0xe4,
  0x14, 0x04, 0x34, 0x24, 0x54, 0x44, 0x74, 0x64,
  0xd5, 0xc5, 0xf5, 0xe5, 0x95, 0x85, 0xb5, 0xa5,
  0x55, 0x45, 0x75, 0x65, 0x15, 0x05, 0x35, 0x25,
  0x16, 0x06, 0x36, 0x26, 0x56, 0x46, 0x76, 0x66,
  0x96, 0x86, 0xb6, 0xa6, 0xd6, 0xc6, 0xf6, 0xe6,
  0x57, 0x47, 0x77, 0x67, 0x17, 0x07, 0x37, 0x27,
  0xd7, 0xc7, 0xf7, 0xe7, 0x97, 0x87, 0xb7, 0xa7,
  0xe8, 0xf8, 0xc8, 0xd8, 0xa8, 0xb8, 0x88, 0x98,
  0x68, 0x78, 0x48, 0x58, 0x28, 0x38, 0x08, 0x18,
  0xa9, 0xb9, 0x89, 0x99, 0xe9, 0xf9, 0xc9, 0xd9,
  0x29, 0x39, 0x09, 0x19, 0x69, 0x79, 0x49, 0x59,
  0x6a, 0x7a, 0x4a, 0x5a, 0x2a, 0x3a, 0x0a, 0x1a,
  0xea, 0xfa, 0xca, 0xda, 0xaa, 0xba, 0x8a, 0x9a,
  0x2b, 0x3b, 0x0b, 0x1b, 0x6b, 0x7b, 0x4b, 0x5b,
  0xab, 0xbb, 0x8b, 0x9b, 0xeb, 0xfb, 0xcb, 0xdb,
  0x7c, 0x6c, 0x5c, 0x4c, 0x3c, 0x2c, 0x1c, 0x0c,
  0xfc, 0xec, 0xdc, 0xcc, 0xbc, 0xac, 0x9c, 0x8c,
  0x3d, 0x2d, 0x1d, 0x0d, 0x7d, 0x6d, 0x5d, 0x4d,
  0xbd, 0xad, 0x9d, 0x8d, 0xfd, 0xed, 0xdd, 0xcd,
  0xfe, 0xee, 0xde, 0xce, 0xbe, 0xae, 0x9e, 0x8e,
  0x7e, 0x6e, 0x5e, 0x4e, 0x3e, 0x2e, 0x1e, 0x0e,
  0xbf, 0xaf, 0x9f, 0x8f, 0xff, 0xef, 0xdf, 0xcf,
  0x3f, 0x2f, 0x1f, 0x0f, 0x7f, 0x6f, 0x5f, 0x4f]

/-- The 256-entry `SQUARE_MAP` used by `BinaryField8b::square`, transcribed
from `binary_field_arithmetic.rs`. -/
def SQUARE_MAP_8B : List Nat := [
  0x00, 0x01, 0x03, 0x02, 0x09, 0x08, 0x0a, 0x0b,
  0x07, 0x06, 0x04, 0x05, 0x0e, 0x0f, 0x0d, 0x0c,
  0x41, 0x40, 0x42, 0x43, 0x48, 0x49, 0x4b, 0x4a,
  0x46, 0x47, 0x45, 0x44, 0x4f, 0x4e, 0x4c, 0x4d,
  0xc3, 0xc2, 0xc0, 0xc1, 0xca, 0xcb, 0xc9, 0xc8,
  0xc4, 0xc5, 0xc7, 0xc6, 0xcd, 0xcc, 0xce, 0xcf,
  0x82, 0x83, 0x81, 0x80, 0x8b, 0x8a, 0x88, 0x89,
  0x85, 0x84, 0x86, 0x87, 0x8c, 0x8d, 0x8f, 0x8e,
  0xa9, 0xa8, 0xaa, 0xab, 0xa0, 0xa1, 0xa3, 0xa2,
  0xae, 0xaf, 0xad, 0xac, 0xa7, 0xa6, 0xa4, 0xa5,
  0xe8, 0xe9, 0xeb, 0xea, 0xe1, 0xe0, 0xe2, 0xe3,
  0xef, 0xee, 0xec, 0xed, 0xe6, 0xe7, 0xe5, 0xe4,
  0x6a, 0x6b, 0x69, 0x68, 0x63, 0x62, 0x60, 0x61,
  0x6d, 0x6c, 0x6e, 0x6f, 0x64, 0x65, 0x67, 0x66,
  0x2b, 0x2a, 0x28, 0x29, 0x22, 0x23, 0x21, 0x20,
  0x2c, 0x2d, 0x2f, 0x2e, 0x25, 0x24, 0x26, 0x27,
  0x57, 0x56, 0x54, 0x55, 0x5e, 0x5f, 0x5d, 0x5c,
  0x50, 0x51, 0x53, 0x52, 0x59, 0x58, 0x5a, 0x5b,
  0x16, 0x17, 0x15, 0x14, 0x1f, 0x1e, 0x1c, 0x1d,
  0x11, 0x10, 0x12, 0x13, 0x18, 0x19, 0x1b, 0x1a,
  0x94, 0x95, 0x97, 0x96, 0x9d, 0x9c, 0x9e, 0x9f,
  0x93, 0x92, 0x90, 0x91, 0x9a, 0x9b, 0x99, 0x98,
  0xd5, 0xd4, 0xd6, 0xd7, 0xdc, 0xdd, 0xdf, 0xde,
  0xd2, 0xd3, 0xd1, 0xd0, 0xdb, 0xda, 0xd8, 0xd9,
  0xfe, 0xff, 0xfd, 0xfc, 0xf7, 0xf6, 0xf4, 0xf5,
  0xf9, 0xf8, 0xfa, 0xfb, 0xf0, 0xf1, 0xf3, 0xf2,
  0xbf, 0xbe, 0xbc, 0xbd, 0xb6, 0xb7, 0xb5, 0xb4,
  0xb8, 0xb9, 0xbb, 0xba, 0xb1, 0xb0, 0xb2, 0xb3,
  0x3d, 0x3c, 0x3e, 0x3f, 0x34, 0x35, 0x37, 0x36,
  0x3a, 0x3b, 0x39, 0x38, 0x33, 0x32, 0x30, 0x31,
  0x7c, 0x7d, 0x7f, 0x7e, 0x75, 0x74, 0x76, 0x77,
  0x7b, 0x7a, 0x78, 0x79, 0x72, 0x73, 0x71, 0x70]

/-- Embedding of `mul_bin_4b`: packed 4-bit multiplication through
`MUL_4B_LOOKUP`, exactly as in the source (`idx = a << 4 | b` in `u8`
arithmetic, then select the nibble). -/
def mulBin4b (a b : Nat) : Nat :=
  let idx := ((a <<< 4) &&& 0xff) ||| b
  (MUL_4B_LOOKUP.getD (idx >>> 1) 0 >>> ((idx &&& 1) * 4)) &&& 0x0f

/-- Number of elements of the level-`k` tower field: `2 ^ 2 ^ k`. -/
def W (k : Nat) : Nat := 2 ^ 2 ^ k

/-- Low half of a level-`(s+1)` element, a level-`s` element (the `a0`
component of the `Into` pair conversion). -/
def lo (s x : Nat) : Nat := x % W s

/-- High half of a level-`(s+1)` element, a level-`s` element (the `a1`
component of the `Into` pair conversion). -/
def hi (s x : Nat) : Nat := x / W s

/-- Reassemble a level-`(s+1)` element from its level-`s` halves (the
`From` pair conversion). -/
def join (s x0 x1 : Nat) : Nat := x0 + x1 * W s

/-- Embedding of `multiply_alpha`.  Level 0 is the identity; levels 1 and 2
multiply by the embedded constants `0x02` and `0x04` through the 4-bit
table; level 3 uses `ALPHA_MAP`; higher levels use the recursive formula
`(a0, a1) -> (a1, a0 + alpha * a1)`. -/
def mulAlpha : Nat → Nat → Nat
  | 0, a => a
  | 1, a => mulBin4b a 2
  | 2, a => mulBin4b a 4
  | 3, a => ALPHA_MAP_8B.getD a 0
  | (s+4), a => join (s+3) (hi (s+3) a) (lo (s+3) a ^^^ mulAlpha (s+3) (hi (s+3) a))

/-- Embedding of `square`.  Levels 1 and 2 multiply the element by itself
through the 4-bit table; level 3 uses `SQUARE_MAP`; higher levels use the
recursive formula `(a0, a1) -> (a0^2 + a1^2, alpha * a1^2)`. -/
def square : Nat → Nat → Nat
  | 0, a => a
  | 1, a => mulBin4b a a
  | 2, a => mulBin4b a a
  | 3, a => SQUARE_MAP_8B.getD a 0
  | (s+4), a =>
    join (s+3) (square (s+3) (lo (s+3) a) ^^^ square (s+3) (hi (s+3) a))
      (mulAlpha (s+3) (square (s+3) (hi (s+3) a)))

/-- Embedding of `multiply`.  Level 0 is bitwise AND; levels 1 and 2 use the
4-bit lookup table; level 3 and above use the recursive Karatsuba formula
from the free function `multiply` (note `BinaryField8b::multiply` calls the
recursive function, not a table). -/
def mul : Nat → Nat → Nat → Nat
  | 0, a, b => a &&& b
  | 1, a, b => mulBin4b a b
  | 2, a, b => mulBin4b a b
  | (s+3), a, b =>
    let a0 := lo (s+2) a
    let a1 := hi (s+2) a
    let b0 := lo (s+2) b
    let b1 := hi (s+2) b
    let z0 := mul (s+2) a0 b0
    let z2 := mul (s+2) a1 b1
    let z0z2 := z0 ^^^ z2
    let z1 := mul (s+2) (a0 ^^^ a1) (b0 ^^^ b1) ^^^ z0z2
    join (s+2) z0z2 (z1 ^^^ mulAlpha (s+2) z2)

/-- Embedding of `invert`.  Level 0 is `CtOption::new(self, self.into())`
(valid exactly on nonzero input); levels 1..3 use `INVERSE_8B` guarded by
`ct_ne(0)`; higher levels use the recursive formula through the delta
discriminant. -/
def invert : Nat → Nat → Option Nat
  | 0, a => if a = 0 then none else some a
  | 1, a => if a = 0 then none else some (INVERSE_8B.getD a 0)
  | 2, a => if a = 0 then none else some (INVERSE_8B.getD a 0)
  | 3, a => if a = 0 then none else some (INVERSE_8B.getD a 0)
  | (s+4), a =>
    let a0 := lo (s+3) a
    let a1 := hi (s+3) a
    let a0z1 := a0 ^^^ mulAlpha (s+3) a1
    let delta := mul (s+3) a0 a0z1 ^^^ square (s+3) a1
    (invert (s+3) delta).map fun dinv =>
      join (s+3) (mul (s+3) dinv a0z1) (mul (s+3) dinv a1)

/-- The level-`k` tower generator constant: `alpha_0 = 1` at level 0 (the
spec's generator recurrence starts there), and at level `k+1` the adjoined
root, whose bit pattern is `2 ^ 2 ^ k` (`0x02` at level 1, `0x04` at
level 2, `0x10` at level 3, ...). -/
def alphaConst : Nat → Nat
  | 0 => 1
  | (k+1) => 2 ^ 2 ^ k

/-- The multiplicative inverse of the level-`k` generator constant; at level
`k+1` it is the pair `(alpha_k, 1)` since `beta^-1 = beta + alpha_k` for the
adjoined root `beta`. -/
def invAlphaConst : Nat → Nat
  | 0 => 1
  | (k+1) => alphaConst k + 2 ^ 2 ^ k

/-- Absolute trace of a level-`k` element down to GF(2), computed through
the transitive tower formula: the relative trace of `z = (z0, z1)` to the
subfield is `alpha_k * z1`.  Proof-side ghost function (not part of the
source); used to derive irreducibility of the tower polynomials. -/
def trF : Nat → Nat → Nat
  | 0, a => a
  | (k+1), a => trF k (mulAlpha k (hi k a))

/-! ### Basic facts about the split/join representation -/

theorem W_pos (k : Nat) : 0 < W k := Nat.pos_pow_of_pos _ (by omega)

theorem one_lt_W (k : Nat) : 1 < W k := by
  show 1 < 2 ^ 2 ^ k
  exact Nat.one_lt_two_pow_iff.mpr (Nat.pos_pow_of_pos k (by omega)).ne'

theorem W_succ (s : Nat) : W (s+1) = W s * W s := by
  show 2 ^ 2 ^ (s+1) = 2 ^ 2 ^ s * 2 ^ 2 ^ s
  rw [pow_succ, Nat.pow_mul, pow_two]

theorem lo_lt (s x : Nat) : lo s x < W s := Nat.mod_lt _ (W_pos s)

theorem hi_lt {s x : Nat} (h : x < W (s+1)) : hi s x < W s := by
  rw [W_succ] at h
  exact Nat.div_lt_of_lt_mul h

theorem join_lo_hi (s x : Nat) : join s (lo s x) (hi s x) = x := by
  rw [join, lo, hi, Nat.mod_add_div']

theorem lo_join {s x0 : Nat} (x1 : Nat) (h : x0 < W s) : lo s (join s x0 x1) = x0 := by
  rw [join, lo, Nat.add_mul_mod_self_right, Nat.mod_eq_of_lt h]

theorem hi_join {s x0 : Nat} (x1 : Nat) (h : x0 < W s) : hi s (join s x0 x1) = x1 := by
  rw [join, hi, Nat.add_mul_div_right _ _ (W_pos s), Nat.div_eq_of_lt h, Nat.zero_add]

theorem join_lt {s x0 x1 : Nat} (h0 : x0 < W s) (h1 : x1 < W s) : join s x0 x1 < W (s+1) := by
  rw [W_succ, join]
  calc x0 + x1 * W s < W s + x1 * W s := by omega
  _ = (x1 + 1) * W s := by ring
  _ ≤ W s * W s := by
      rw [Nat.mul_comm]
      exact Nat.mul_le_mul_left _ (by omega)

theorem join_eq_zero {s x0 x1 : Nat} : join s x0 x1 = 0 ↔ x0 = 0 ∧ x1 = 0 := by
  have := W_pos s
  rw [join]
  constructor
  · intro h
    have h1 : x1 * W s = 0 := by omega
    have h2 : x1 = 0 := by
      rcases Nat.mul_eq_zero.mp h1 with h | h
      · exact h
      · omega
    exact ⟨by omega, h2⟩
  · rintro ⟨rfl, rfl⟩; simp

theorem xor_join {s : Nat} (a0 a1 b0 b1 : Nat) (ha : a0 < W s) (hb : b0 < W s) :
    join s a0 a1 ^^^ join s b0 b1 = join s (a0 ^^^ b0) (a1 ^^^ b1) := by
  have hW : W s = 2 ^ 2 ^ s := rfl
  have hx : a0 ^^^ b0 < 2 ^ 2 ^ s := Nat.xor_lt_two_pow (hW ▸ ha) (hW ▸ hb)
  have e : ∀ c0 c1 : Nat, join s c0 c1 = 2 ^ 2 ^ s * c1 + c0 := by
    intro c0 c1; rw [join, hW, Nat.add_comm, Nat.mul_comm]
  rw [e, e, e]
  apply Nat.eq_of_testBit_eq
  intro i
  rw [Nat.testBit_xor, Nat.testBit_mul_pow_two_add _ (hW ▸ ha),
    Nat.testBit_mul_pow_two_add _ (hW ▸ hb), Nat.testBit_mul_pow_two_add _ hx]
  by_cases h : i < 2 ^ s <;> simp [h, Nat.testBit_xor]

theorem lo_xor (s a b : Nat) : lo s (a ^^^ b) = lo s a ^^^ lo s b := by
  conv_lhs => rw [← join_lo_hi s a, ← join_lo_hi s b,
    xor_join _ _ _ _ (lo_lt s a) (lo_lt s b), lo_join _ (Nat.xor_lt_two_pow (lo_lt s a) (lo_lt s b))]

theorem hi_xor (s a b : Nat) : hi s (a ^^^ b) = hi s a ^^^ hi s b := by
  conv_lhs => rw [← join_lo_hi s a, ← join_lo_hi s b,
    xor_join _ _ _ _ (lo_lt s a) (lo_lt s b), hi_join _ (Nat.xor_lt_two_pow (lo_lt s a) (lo_lt s b))]

/-! ### Unfolding equations for the recursive levels -/

theorem mul_succ (m a b : Nat) :
    mul (m+3) a b =
      join (m+2) (mul (m+2) (lo (m+2) a) (lo (m+2) b) ^^^ mul (m+2) (hi (m+2) a) (hi (m+2) b))
        ((mul (m+2) (lo (m+2) a ^^^ hi (m+2) a) (lo (m+2) b ^^^ hi (m+2) b) ^^^
          (mul (m+2) (lo (m+2) a) (lo (m+2) b) ^^^ mul (m+2) (hi (m+2) a) (hi (m+2) b))) ^^^
          mulAlpha (m+2) (mul (m+2) (hi (m+2) a) (hi (m+2) b))) := rfl

theorem mulAlpha_succ (m a : Nat) :
    mulAlpha (m+4) a = join (m+3) (hi (m+3) a) (lo (m+3) a ^^^ mulAlpha (m+3) (hi (m+3) a)) := rfl

theorem square_succ (m a : Nat) :
    square (m+4) a =
      join (m+3) (square (m+3) (lo (m+3) a) ^^^ square (m+3) (hi (m+3) a))
        (mulAlpha (m+3) (square (m+3) (hi (m+3) a))) := rfl

theorem invert_succ (m a : Nat) :
    invert (m+4) a =
      (invert (m+3) (mul (m+3) (lo (m+3) a) (lo (m+3) a ^^^ mulAlpha (m+3) (hi (m+3) a)) ^^^
          square (m+3) (hi (m+3) a))).map fun dinv =>
        join (m+3) (mul (m+3) dinv (lo (m+3) a ^^^ mulAlpha (m+3) (hi (m+3) a)))
          (mul (m+3) dinv (hi (m+3) a)) := rfl

set_option maxRecDepth 10000 in
/-- The level-3 `ALPHA_MAP` lookup agrees with the recursive
multiply-by-alpha formula over level 2. -/
theorem mulAlpha_three :
    ∀ a, a < W 3 → mulAlpha 3 a = join 2 (hi 2 a) (lo 2 a ^^^ mulAlpha 2 (hi 2 a)) := by decide

set_option maxRecDepth 10000 in
/-- The level-3 `SQUARE_MAP` lookup agrees with the recursive squaring
formula over level 2. -/
theorem square_three :
    ∀ a, a < W 3 → square 3 a =
      join 2 (square 2 (lo 2 a) ^^^ square 2 (hi 2 a)) (mulAlpha 2 (square 2 (hi 2 a))) := by
  decide

set_option maxRecDepth 10000 in
/-- The level-3 `INVERSE_8B` lookup agrees with the recursive inversion
formula over level 2. -/
theorem invert_three :
    ∀ a, a < W 3 → invert 3 a =
      (invert 2 (mul 2 (lo 2 a) (lo 2 a ^^^ mulAlpha 2 (hi 2 a)) ^^^ square 2 (hi 2 a))).map
        fun dinv => join 2 (mul 2 dinv (lo 2 a ^^^ mulAlpha 2 (hi 2 a))) (mul 2 dinv (hi 2 a)) := by
  decide

theorem mulAlpha_eq_rec (s : Nat) (hs : 2 ≤ s) :
    ∀ a, a < W (s+1) → mulAlpha (s+1) a =
      join s (hi s a) (lo s a ^^^ mulAlpha s (hi s a)) := by
  match s, hs with
  | 2, _ => exact mulAlpha_three
  | (m+3), _ => intro a _; exact mulAlpha_succ m a

theorem square_eq_rec (s : Nat) (hs : 2 ≤ s) :
    ∀ a, a < W (s+1) → square (s+1) a =
      join s (square s (lo s a) ^^^ square s (hi s a)) (mulAlpha s (square s (hi s a))) := by
  match s, hs with
  | 2, _ => exact square_three
  | (m+3), _ => intro a _; exact square_succ m a

theorem invert_eq_rec (s : Nat) (hs : 2 ≤ s) :
    ∀ a, a < W (s+1) → invert (s+1) a =
      (invert s (mul s (lo s a) (lo s a ^^^ mulAlpha s (hi s a)) ^^^ square s (hi s a))).map
        fun dinv => join s (mul s dinv (lo s a ^^^ mulAlpha s (hi s a))) (mul s dinv (hi s a)) := by
  match s, hs with
  | 2, _ => exact invert_three
  | (m+3), _ => intro a _; exact invert_succ m a

/-! ### The level invariant -/

/-- The inductive invariant carried up the tower: the level-`k` operations
form a commutative ring on `[0, W k)` with the generator constants behaving
as specified, inversion is correct, and the ghost trace satisfies the
Artin-Schreier facts needed to push irreducibility up one level. -/
structure Inv (k : Nat) : Prop where
  mul_lt : ∀ a, a < W k → ∀ b, b < W k → mul k a b < W k
  mul_comm : ∀ a, a < W k → ∀ b, b < W k → mul k a b = mul k b a
  mul_assoc : ∀ a, a < W k → ∀ b, b < W k → ∀ c, c < W k →
    mul k (mul k a b) c = mul k a (mul k b c)
  one_mul : ∀ a, a < W k → mul k 1 a = a
  zero_mul : ∀ a, a < W k → mul k 0 a = 0
  mul_distrib : ∀ a, a < W k → ∀ b, b < W k → ∀ c, c < W k →
    mul k a (b ^^^ c) = mul k a b ^^^ mul k a c
  alpha_lt : alphaConst k < W k
  invAlpha_lt : invAlphaConst k < W k
  invAlpha_mul : mul k (invAlphaConst k) (alphaConst k) = 1
  mulAlpha_eq : ∀ a, a < W k → mulAlpha k a = mul k (alphaConst k) a
  square_eq : ∀ a, a < W k → square k a = mul k a a
  invert_zero : invert k 0 = none
  invert_isSome : ∀ a, a < W k → a ≠ 0 → (invert k a).isSome = true
  invert_lt : ∀ a, a < W k → a ≠ 0 → (invert k a).getD 0 < W k
  invert_mul : ∀ a, a < W k → a ≠ 0 → mul k ((invert k a).getD 0) a = 1
  tr_sq : ∀ a, a < W k → trF k (mul k a a) = trF k a
  tr_artin : ∀ a, a < W k → trF k (mul k a a ^^^ a) = 0
  tr_alpha : trF k (alphaConst k) = 1
  tr_invAlpha : trF k (invAlphaConst k) = 1

/-! ### Abstract quadratic-extension pair algebra

Over any commutative ring `R` with a distinguished element `al`, the clean
multiplication `mcMul` below is multiplication in `R[X] / (X^2 - al*X - 1)`;
in characteristic 2 it agrees with the source-shaped Karatsuba formula
`msrcMul`.  The structural laws are proven here once and transported to each
tower level. -/

section PairAlg

variable {R : Type} [CommRing R]

/-- Clean quadratic-extension multiplication: the image of the Karatsuba
formula in `R[X] / (X^2 - al*X - 1)`. -/
def mcMul (al : R) (a b : R × R) : R × R :=
  (a.1 * b.1 + a.2 * b.2, a.1 * b.2 + a.2 * b.1 + al * (a.2 * b.2))

/-- Source-shaped Karatsuba multiplication with subtraction rendered as
addition (the tower rings have characteristic 2). -/
def msrcMul (al : R) (a b : R × R) : R × R :=
  (a.1 * b.1 + a.2 * b.2,
   (a.1 + a.2) * (b.1 + b.2) + (a.1 * b.1 + a.2 * b.2) + al * (a.2 * b.2))

theorem msrcMul_eq_mcMul (al : R) (h2 : ∀ x : R, x + x = 0) (a b : R × R) :
    msrcMul al a b = mcMul al a b := by
  rw [msrcMul, mcMul, Prod.mk.injEq]
  exact ⟨rfl, by linear_combination h2 (a.1 * b.1 + a.2 * b.2)⟩

theorem mcMul_comm (al : R) (a b : R × R) : mcMul al a b = mcMul al b a := by
  rw [mcMul, mcMul, Prod.mk.injEq]
  exact ⟨by ring, by ring⟩

theorem mcMul_assoc (al : R) (a b c : R × R) :
    mcMul al (mcMul al a b) c = mcMul al a (mcMul al b c) := by
  rw [mcMul, mcMul, mcMul, mcMul, Prod.mk.injEq]
  exact ⟨by ring, by ring⟩

theorem one_mcMul (al : R) (a : R × R) : mcMul al (1, 0) a = a := by
  rw [mcMul, Prod.mk.injEq]
  exact ⟨by ring, by ring⟩

theorem zero_mcMul (al : R) (a : R × R) : mcMul al (0, 0) a = (0, 0) := by
  rw [mcMul, Prod.mk.injEq]
  exact ⟨by ring, by ring⟩

theorem mcMul_add (al : R) (a b c : R × R) :
    mcMul al a (b.1 + c.1, b.2 + c.2) =
      ((mcMul al a b).1 + (mcMul al a c).1, (mcMul al a b).2 + (mcMul al a c).2) := by
  rw [mcMul, mcMul, mcMul, Prod.mk.injEq]
  exact ⟨by ring, by ring⟩

/-- The multiply-by-alpha pair formula is multiplication by the adjoined
root `(0, 1)`. -/
theorem maPair_eq_mcMul (al : R) (a : R × R) : (a.2, a.1 + al * a.2) = mcMul al (0, 1) a := by
  rw [mcMul, Prod.mk.injEq]
  exact ⟨by ring, by ring⟩

/-- The source squaring pair formula agrees with self-multiplication in
characteristic 2. -/
theorem sqPair_eq_mcMul (al : R) (h2 : ∀ x : R, x + x = 0) (a : R × R) :
    (a.1 * a.1 + a.2 * a.2, al * (a.2 * a.2)) = mcMul al a a := by
  rw [mcMul, Prod.mk.injEq]
  exact ⟨rfl, by linear_combination (-1 : R) * h2 (a.1 * a.2)⟩

/-- The inversion candidate produced by the source recursion is a left
inverse, given that `d` inverts the delta discriminant. -/
theorem mcMul_invPair (al d : R) (h2 : ∀ x : R, x + x = 0) (a : R × R)
    (hd : d * (a.1 * (a.1 + al * a.2) + a.2 * a.2) = 1) :
    mcMul al (d * (a.1 + al * a.2), d * a.2) a = (1, 0) := by
  rw [mcMul, Prod.mk.injEq]
  exact ⟨by linear_combination hd,
    by linear_combination h2 (d * (a.1 * a.2)) + h2 (al * (d * (a.2 * a.2)))⟩

end PairAlg

set_option maxRecDepth 10000 in
theorem inv_zero : Inv 0 := by constructor <;> decide

set_option maxRecDepth 10000 in
theorem inv_one : Inv 1 := by constructor <;> decide

set_option maxRecDepth 10000 in
set_option maxHeartbeats 4000000 in
theorem inv_two : Inv 2 := by constructor <;> decide


/-! ### The level carrier as a commutative ring -/

/-- The level-`k` tower field carrier: naturals below `W k`. -/
abbrev TF (k : Nat) : Type := {x : Nat // x < W k}

theorem xor_lt_W {k a b : Nat} (ha : a < W k) (hb : b < W k) : a ^^^ b < W k :=
  Nat.xor_lt_two_pow ha hb

/-- Split a level-`(s+1)` element into its pair of level-`s` halves. -/
def spl (s x : Nat) (h : x < W (s+1)) : TF s × TF s :=
  (⟨lo s x, lo_lt s x⟩, ⟨hi s x, hi_lt h⟩)

/-- Join a pair of level-`s` halves into a level-`(s+1)` element. -/
def jn (s : Nat) (p : TF s × TF s) : Nat := join s p.1.1 p.2.1

/-- Commutative ring structure on the level-`k` carrier induced by XOR and
the level-`k` multiplication, available once the invariant holds. -/
def tfCommRing (k : Nat) (ih : Inv k) : CommRing (TF k) :=
  letI : Zero (TF k) := ⟨⟨0, W_pos k⟩⟩
  letI : One (TF k) := ⟨⟨1, one_lt_W k⟩⟩
  letI : Add (TF k) := ⟨fun a b => ⟨a.1 ^^^ b.1, xor_lt_W a.2 b.2⟩⟩
  letI : Mul (TF k) := ⟨fun a b => ⟨mul k a.1 b.1, ih.mul_lt a.1 a.2 b.1 b.2⟩⟩
  letI : Neg (TF k) := ⟨fun a => a⟩
  { add := (· + ·)
    add_assoc := fun a b c => Subtype.ext (Nat.xor_assoc a.1 b.1 c.1)
    zero := 0
    zero_add := fun a => Subtype.ext (Nat.zero_xor a.1)
    add_zero := fun a => Subtype.ext (Nat.xor_zero a.1)
    add_comm := fun a b => Subtype.ext (Nat.xor_comm a.1 b.1)
    nsmul := nsmulRec
    zsmul := zsmulRec
    npow := npowRec
    mul := (· * ·)
    left_distrib := fun a b c => Subtype.ext (ih.mul_distrib a.1 a.2 b.1 b.2 c.1 c.2)
    right_distrib := fun a b c => Subtype.ext (by
      show mul k (a.1 ^^^ b.1) c.1 = mul k a.1 c.1 ^^^ mul k b.1 c.1
      rw [ih.mul_comm _ (xor_lt_W a.2 b.2) c.1 c.2, ih.mul_distrib c.1 c.2 a.1 a.2 b.1 b.2,
        ih.mul_comm c.1 c.2 a.1 a.2, ih.mul_comm c.1 c.2 b.1 b.2])
    zero_mul := fun a => Subtype.ext (ih.zero_mul a.1 a.2)
    mul_zero := fun a => Subtype.ext (by
      show mul k a.1 0 = 0
      rw [ih.mul_comm a.1 a.2 0 (W_pos k)]
      exact ih.zero_mul a.1 a.2)
    mul_assoc := fun a b c => Subtype.ext (ih.mul_assoc a.1 a.2 b.1 b.2 c.1 c.2)
    one := 1
    one_mul := fun a => Subtype.ext (ih.one_mul a.1 a.2)
    mul_one := fun a => Subtype.ext (by
      show mul k a.1 1 = a.1
      rw [ih.mul_comm a.1 a.2 1 (one_lt_W k)]
      exact ih.one_mul a.1 a.2)
    mul_comm := fun a b => Subtype.ext (ih.mul_comm a.1 a.2 b.1 b.2)
    neg := fun a => a
    neg_add_cancel := fun a => Subtype.ext (Nat.xor_self a.1) }

/-! ### The inductive step -/

theorem inv_step (s : Nat) (hs : 2 ≤ s) (ih : Inv s) : Inv (s+1) := by
  letI : CommRing (TF s) := tfCommRing s ih
  have h2 : ∀ x : TF s, x + x = 0 := fun x =>
    Subtype.ext (show x.1 ^^^ x.1 = 0 from Nat.xor_self x.1)
  have hpair : ∀ p q : TF s × TF s, p.1 = q.1 → p.2 = q.2 → p = q := by
    rintro ⟨p1, p2⟩ ⟨q1, q2⟩ e1 e2
    cases e1; cases e2; rfl
  set pA : TF s := ⟨alphaConst s, ih.alpha_lt⟩ with hpAdef
  -- bridge for multiplication
  have hmulB : ∀ x y (hx : x < W (s+1)) (hy : y < W (s+1)),
      mul (s+1) x y = jn s (mcMul pA (spl s x hx) (spl s y hy)) := by
    obtain ⟨m, rfl⟩ : ∃ m, s = m + 2 := ⟨s - 2, by omega⟩
    intro x y hx hy
    rw [← msrcMul_eq_mcMul pA h2]
    show mul (m+3) x y = _
    rw [mul_succ, ih.mulAlpha_eq _ (ih.mul_lt _ (hi_lt hx) _ (hi_lt hy))]
    rfl
  have hjn_lt : ∀ p : TF s × TF s, jn s p < W (s+1) := fun p => join_lt p.1.2 p.2.2
  have hjn_spl : ∀ x (hx : x < W (s+1)), jn s (spl s x hx) = x := fun x _ => join_lo_hi s x
  have hspl_jn : ∀ (p : TF s × TF s) (hp : jn s p < W (s+1)), spl s (jn s p) hp = p := by
    intro p hp
    exact hpair _ _ (Subtype.ext (lo_join _ p.1.2)) (Subtype.ext (hi_join _ p.1.2))
  have hmul_lt : ∀ a, a < W (s+1) → ∀ b, b < W (s+1) → mul (s+1) a b < W (s+1) := by
    intro a ha b hb
    rw [hmulB a b ha hb]
    exact hjn_lt _
  have hmul_comm : ∀ a, a < W (s+1) → ∀ b, b < W (s+1) → mul (s+1) a b = mul (s+1) b a := by
    intro a ha b hb
    rw [hmulB a b ha hb, hmulB b a hb ha, mcMul_comm]
  have hmul_assoc : ∀ a, a < W (s+1) → ∀ b, b < W (s+1) → ∀ c, c < W (s+1) →
      mul (s+1) (mul (s+1) a b) c = mul (s+1) a (mul (s+1) b c) := by
    intro a ha b hb c hc
    rw [hmulB a b ha hb, hmulB _ c (hjn_lt _) hc, hspl_jn,
        hmulB b c hb hc, hmulB a _ ha (hjn_lt _), hspl_jn, mcMul_assoc]
  -- splitting and joining special elements
  have hspl_one : ∀ (h : (1:Nat) < W (s+1)), spl s 1 h = ((1 : TF s), (0 : TF s)) := by
    intro h
    refine hpair _ _ (Subtype.ext ?_) (Subtype.ext ?_)
    · exact Nat.mod_eq_of_lt (one_lt_W s)
    · exact Nat.div_eq_of_lt (one_lt_W s)
  have hspl_zero : ∀ (h : (0:Nat) < W (s+1)), spl s 0 h = ((0 : TF s), (0 : TF s)) := by
    intro h
    refine hpair _ _ (Subtype.ext ?_) (Subtype.ext ?_)
    · exact Nat.zero_mod _
    · exact Nat.zero_div _
  have hjn_one : jn s ((1 : TF s), (0 : TF s)) = 1 := by
    show join s 1 0 = 1
    simp [join]
  have hjn_zero : jn s ((0 : TF s), (0 : TF s)) = 0 := by
    show join s 0 0 = 0
    simp [join]
  have halpha_lt : alphaConst (s+1) < W (s+1) := by
    show W s < W (s+1)
    rw [W_succ]
    calc W s = 1 * W s := (Nat.one_mul _).symm
    _ < W s * W s := (Nat.mul_lt_mul_right (W_pos s)).mpr (one_lt_W s)
  have hspl_alpha : ∀ (h : alphaConst (s+1) < W (s+1)),
      spl s (alphaConst (s+1)) h = ((0 : TF s), (1 : TF s)) := by
    intro h
    refine hpair _ _ (Subtype.ext ?_) (Subtype.ext ?_)
    · exact Nat.mod_self _
    · exact Nat.div_self (W_pos s)
  have hinvAlpha_join : invAlphaConst (s+1) = jn s (pA, (1 : TF s)) := by
    show alphaConst s + 2 ^ 2 ^ s = join s (alphaConst s) 1
    simp [join, W]
  have hinvAlpha_lt : invAlphaConst (s+1) < W (s+1) := by
    rw [hinvAlpha_join]
    exact hjn_lt _
  have hspl_invAlpha : ∀ (h : invAlphaConst (s+1) < W (s+1)),
      spl s (invAlphaConst (s+1)) h = (pA, (1 : TF s)) := by
    intro h
    refine hpair _ _ (Subtype.ext ?_) (Subtype.ext ?_)
    · show lo s (invAlphaConst (s+1)) = alphaConst s
      rw [hinvAlpha_join]
      exact lo_join _ pA.2
    · show hi s (invAlphaConst (s+1)) = 1
      rw [hinvAlpha_join]
      exact hi_join _ pA.2
  -- XOR splits componentwise
  have hspl_xor : ∀ a b (ha : a < W (s+1)) (hb : b < W (s+1)) (hab : a ^^^ b < W (s+1)),
      spl s (a ^^^ b) hab =
        ((spl s a ha).1 + (spl s b hb).1, (spl s a ha).2 + (spl s b hb).2) := by
    intro a b ha hb hab
    refine hpair _ _ (Subtype.ext ?_) (Subtype.ext ?_)
    · exact lo_xor s a b
    · exact hi_xor s a b
  have hmul_distrib : ∀ a, a < W (s+1) → ∀ b, b < W (s+1) → ∀ c, c < W (s+1) →
      mul (s+1) a (b ^^^ c) = mul (s+1) a b ^^^ mul (s+1) a c := by
    intro a ha b hb c hc
    have hbc : b ^^^ c < W (s+1) := xor_lt_W hb hc
    rw [hmulB a _ ha hbc, hspl_xor b c hb hc hbc, mcMul_add,
        hmulB a b ha hb, hmulB a c ha hc]
    exact (xor_join _ _ _ _ (mcMul pA (spl s a ha) (spl s b hb)).1.2
      (mcMul pA (spl s a ha) (spl s c hc)).1.2).symm
  have hone_mul : ∀ a, a < W (s+1) → mul (s+1) 1 a = a := by
    intro a ha
    rw [hmulB 1 a (one_lt_W (s+1)) ha, hspl_one, one_mcMul, hjn_spl]
  have hzero_mul : ∀ a, a < W (s+1) → mul (s+1) 0 a = 0 := by
    intro a ha
    rw [hmulB 0 a (W_pos (s+1)) ha, hspl_zero, zero_mcMul, hjn_zero]
  -- generator facts
  have hinvAlpha_mul : mul (s+1) (invAlphaConst (s+1)) (alphaConst (s+1)) = 1 := by
    rw [hmulB _ _ hinvAlpha_lt halpha_lt, hspl_invAlpha, hspl_alpha]
    have hmc : mcMul pA (pA, (1 : TF s)) ((0 : TF s), (1 : TF s)) = ((1 : TF s), (0 : TF s)) := by
      refine hpair _ _ ?_ ?_
      · show pA * 0 + 1 * 1 = (1 : TF s)
        ring
      · show pA * 1 + 1 * 0 + pA * (1 * 1) = (0 : TF s)
        linear_combination h2 pA
    rw [hmc]
    exact hjn_one
  -- multiply-by-alpha and squaring bridges
  have hmaB : ∀ a (ha : a < W (s+1)),
      mulAlpha (s+1) a = jn s (mcMul pA ((0 : TF s), (1 : TF s)) (spl s a ha)) := by
    intro a ha
    rw [mulAlpha_eq_rec s hs a ha, ih.mulAlpha_eq _ (hi_lt ha), ← maPair_eq_mcMul]
    rfl
  have hmulAlpha_eq : ∀ a, a < W (s+1) → mulAlpha (s+1) a = mul (s+1) (alphaConst (s+1)) a := by
    intro a ha
    rw [hmaB a ha, hmulB (alphaConst (s+1)) a halpha_lt ha, hspl_alpha]
  have hsquare_eq : ∀ a, a < W (s+1) → square (s+1) a = mul (s+1) a a := by
    intro a ha
    rw [square_eq_rec s hs a ha, ih.square_eq _ (lo_lt s a), ih.square_eq _ (hi_lt ha),
        ih.mulAlpha_eq _ (ih.mul_lt _ (hi_lt ha) _ (hi_lt ha)),
        hmulB a a ha ha, ← sqPair_eq_mcMul pA h2]
    rfl
  -- inversion support
  have hne01 : (0 : TF s) ≠ 1 := by
    intro h
    have hv : (0 : Nat) = 1 := congrArg Subtype.val h
    omega
  have tfinv : ∀ t : TF s, t ≠ 0 → ∃ y : TF s, y * t = 1 := by
    intro t ht
    have htv : t.1 ≠ 0 := fun h => ht (Subtype.ext h)
    refine ⟨⟨(invert s t.1).getD 0, ih.invert_lt _ t.2 htv⟩, Subtype.ext ?_⟩
    exact ih.invert_mul _ t.2 htv
  have hmul_ne : ∀ x y : TF s, x ≠ 0 → y ≠ 0 → x * y ≠ 0 := by
    intro x y hx hy hxy
    obtain ⟨xi, hxi⟩ := tfinv x hx
    obtain ⟨yi, hyi⟩ := tfinv y hy
    have key : (yi * xi) * (x * y) = 1 := by
      have e : (yi * xi) * (x * y) = (xi * x) * (yi * y) := by ring
      rw [e, hxi, hyi, one_mul]
    rw [hxy, mul_zero] at key
    exact hne01 key
  have hnoRoot : ∀ t : TF s, t * t + pA * t + 1 ≠ 0 := by
    intro t ht
    have hIA : (⟨invAlphaConst s, ih.invAlpha_lt⟩ : TF s) * pA = 1 := Subtype.ext ih.invAlpha_mul
    set pAi : TF s := ⟨invAlphaConst s, ih.invAlpha_lt⟩ with hpAidef
    have hy2 : (pAi * t) * (pAi * t) + pAi * t = pAi * pAi := by
      linear_combination (pAi * pAi) * ht - (pAi * t) * hIA - h2 (pAi * pAi)
    have hNat : mul s (pAi * t).1 (pAi * t).1 ^^^ (pAi * t).1 = mul s pAi.1 pAi.1 :=
      congrArg Subtype.val hy2
    have h0 : trF s (mul s (pAi * t).1 (pAi * t).1 ^^^ (pAi * t).1) = 0 :=
      ih.tr_artin (pAi * t).1 (pAi * t).2
    rw [hNat] at h0
    have h1' : trF s (mul s pAi.1 pAi.1) = 1 := by
      have := ih.tr_sq pAi.1 pAi.2
      rw [this]
      exact ih.tr_invAlpha
    omega
  -- the delta discriminant
  have hdelta : ∀ a (ha : a < W (s+1)),
      mul s (lo s a) (lo s a ^^^ mulAlpha s (hi s a)) ^^^ square s (hi s a) =
        ((spl s a ha).1 * ((spl s a ha).1 + pA * (spl s a ha).2) +
          (spl s a ha).2 * (spl s a ha).2).1 := by
    intro a ha
    rw [ih.mulAlpha_eq _ (hi_lt ha), ih.square_eq _ (hi_lt ha)]
    rfl
  have hdelta_ne : ∀ a (ha : a < W (s+1)), a ≠ 0 →
      (spl s a ha).1 * ((spl s a ha).1 + pA * (spl s a ha).2) +
        (spl s a ha).2 * (spl s a ha).2 ≠ 0 := by
    intro a ha ha0 hd
    have hx00 : ¬((spl s a ha).1 = 0 ∧ (spl s a ha).2 = 0) := by
      rintro ⟨e1, e2⟩
      apply ha0
      rw [← hjn_spl a ha]
      show join s (spl s a ha).1.1 (spl s a ha).2.1 = 0
      have hv1 : (spl s a ha).1.1 = 0 := congrArg Subtype.val e1
      have hv2 : (spl s a ha).2.1 = 0 := congrArg Subtype.val e2
      rw [hv1, hv2]
      simp [join]
    by_cases h1 : (spl s a ha).2 = 0
    · have hx0 : (spl s a ha).1 ≠ 0 := fun h0 => hx00 ⟨h0, h1⟩
      have e : (spl s a ha).1 * ((spl s a ha).1 + pA * (spl s a ha).2) +
          (spl s a ha).2 * (spl s a ha).2 = (spl s a ha).1 * (spl s a ha).1 := by
        rw [h1]; ring
      rw [e] at hd
      exact hmul_ne _ _ hx0 hx0 hd
    · obtain ⟨w, hw⟩ := tfinv _ h1
      apply hnoRoot ((spl s a ha).1 * w)
      linear_combination (w * w) * hd -
        (pA * (spl s a ha).1 * w + (spl s a ha).2 * w + 1) * hw
  -- inversion at the next level
  have hinv_zero : invert (s+1) 0 = none := by
    rw [invert_eq_rec s hs 0 (W_pos (s+1))]
    have hl : lo s 0 = 0 := Nat.zero_mod _
    have hh : hi s 0 = 0 := Nat.zero_div _
    rw [hl, hh, ih.mulAlpha_eq 0 (W_pos s), ih.square_eq 0 (W_pos s)]
    have hz : mul s (alphaConst s) 0 = 0 := by
      rw [ih.mul_comm _ ih.alpha_lt 0 (W_pos s)]
      exact ih.zero_mul _ ih.alpha_lt
    rw [hz]
    have h00 : (0 : Nat) ^^^ 0 = 0 := Nat.xor_self 0
    rw [h00, ih.zero_mul 0 (W_pos s), h00, ih.invert_zero]
    rfl
  have hinv_main : ∀ a, a < W (s+1) → a ≠ 0 →
      ∃ y, invert (s+1) a = some y ∧ y < W (s+1) ∧ mul (s+1) y a = 1 := by
    intro a ha ha0
    have hdne := hdelta_ne a ha ha0
    have hvne : ((spl s a ha).1 * ((spl s a ha).1 + pA * (spl s a ha).2) +
        (spl s a ha).2 * (spl s a ha).2).1 ≠ 0 := fun h => hdne (Subtype.ext h)
    obtain ⟨dv, hdv⟩ := Option.isSome_iff_exists.mp
      (ih.invert_isSome _ ((spl s a ha).1 * ((spl s a ha).1 + pA * (spl s a ha).2) +
        (spl s a ha).2 * (spl s a ha).2).2 hvne)
    have hdlt : dv < W s := by
      have := ih.invert_lt _ ((spl s a ha).1 * ((spl s a ha).1 + pA * (spl s a ha).2) +
        (spl s a ha).2 * (spl s a ha).2).2 hvne
      rwa [hdv, Option.getD_some] at this
    have hdmul : (⟨dv, hdlt⟩ : TF s) *
        ((spl s a ha).1 * ((spl s a ha).1 + pA * (spl s a ha).2) +
          (spl s a ha).2 * (spl s a ha).2) = 1 := by
      refine Subtype.ext ?_
      have := ih.invert_mul _ ((spl s a ha).1 * ((spl s a ha).1 + pA * (spl s a ha).2) +
        (spl s a ha).2 * (spl s a ha).2).2 hvne
      rwa [hdv, Option.getD_some] at this
    refine ⟨jn s ((⟨dv, hdlt⟩ : TF s) * ((spl s a ha).1 + pA * (spl s a ha).2),
      (⟨dv, hdlt⟩ : TF s) * (spl s a ha).2), ?_, hjn_lt _, ?_⟩
    · rw [invert_eq_rec s hs a ha, hdelta a ha, hdv, Option.map_some']
      congr 1
      rw [ih.mulAlpha_eq _ (hi_lt ha)]
      rfl
    · rw [hmulB _ a (hjn_lt _) ha, hspl_jn,
        mcMul_invPair pA _ h2 (spl s a ha) hdmul]
      exact hjn_one
  -- trace facts at the next level
  have htr_succ : ∀ a : Nat, trF (s+1) a = trF s (mulAlpha s (hi s a)) := fun _ => rfl
  have hhi_mul_self : ∀ a (ha : a < W (s+1)),
      hi s (mul (s+1) a a) = (mcMul pA (spl s a ha) (spl s a ha)).2.1 := by
    intro a ha
    rw [hmulB a a ha ha]
    exact hi_join _ (mcMul pA (spl s a ha) (spl s a ha)).1.2
  have htr_sq : ∀ a, a < W (s+1) → trF (s+1) (mul (s+1) a a) = trF (s+1) a := by
    intro a ha
    have e1 : trF (s+1) (mul (s+1) a a) =
        trF s ((pA * (mcMul pA (spl s a ha) (spl s a ha)).2).1) := by
      rw [htr_succ, hhi_mul_self a ha,
        ih.mulAlpha_eq _ (mcMul pA (spl s a ha) (spl s a ha)).2.2]
      rfl
    have e2 : trF (s+1) a = trF s ((pA * (spl s a ha).2).1) := by
      rw [htr_succ, ih.mulAlpha_eq _ (hi_lt ha)]
      rfl
    have key : pA * (mcMul pA (spl s a ha) (spl s a ha)).2 =
        (pA * (spl s a ha).2) * (pA * (spl s a ha).2) := by
      show pA * ((spl s a ha).1 * (spl s a ha).2 + (spl s a ha).2 * (spl s a ha).1 +
        pA * ((spl s a ha).2 * (spl s a ha).2)) = _
      linear_combination h2 (pA * ((spl s a ha).1 * (spl s a ha).2))
    rw [e1, e2, congrArg Subtype.val key]
    exact ih.tr_sq (pA * (spl s a ha).2).1 (pA * (spl s a ha).2).2
  have htr_artin : ∀ a, a < W (s+1) → trF (s+1) (mul (s+1) a a ^^^ a) = 0 := by
    intro a ha
    have e1 : trF (s+1) (mul (s+1) a a ^^^ a) =
        trF s ((pA * ((mcMul pA (spl s a ha) (spl s a ha)).2 + (spl s a ha).2)).1) := by
      rw [htr_succ, hi_xor, hhi_mul_self a ha,
        ih.mulAlpha_eq _ (xor_lt_W (mcMul pA (spl s a ha) (spl s a ha)).2.2 (hi_lt ha))]
      rfl
    have key : pA * ((mcMul pA (spl s a ha) (spl s a ha)).2 + (spl s a ha).2) =
        (pA * (spl s a ha).2) * (pA * (spl s a ha).2) + pA * (spl s a ha).2 := by
      show pA * (((spl s a ha).1 * (spl s a ha).2 + (spl s a ha).2 * (spl s a ha).1 +
        pA * ((spl s a ha).2 * (spl s a ha).2)) + (spl s a ha).2) = _
      linear_combination h2 (pA * ((spl s a ha).1 * (spl s a ha).2))
    rw [e1, congrArg Subtype.val key]
    exact ih.tr_artin (pA * (spl s a ha).2).1 (pA * (spl s a ha).2).2
  have halpha1 : mul s (alphaConst s) 1 = alphaConst s := by
    rw [ih.mul_comm _ ih.alpha_lt 1 (one_lt_W s)]
    exact ih.one_mul _ ih.alpha_lt
  have htr_alpha : trF (s+1) (alphaConst (s+1)) = 1 := by
    rw [htr_succ]
    have hh : hi s (alphaConst (s+1)) = 1 := Nat.div_self (W_pos s)
    rw [hh, ih.mulAlpha_eq 1 (one_lt_W s), halpha1]
    exact ih.tr_alpha
  have htr_invAlpha : trF (s+1) (invAlphaConst (s+1)) = 1 := by
    rw [htr_succ]
    have hh : hi s (invAlphaConst (s+1)) = 1 := by
      rw [hinvAlpha_join]
      exact hi_join _ pA.2
    rw [hh, ih.mulAlpha_eq 1 (one_lt_W s), halpha1]
    exact ih.tr_alpha
  exact {
    mul_lt := hmul_lt
    mul_comm := hmul_comm
    mul_assoc := hmul_assoc
    one_mul := hone_mul
    zero_mul := hzero_mul
    mul_distrib := hmul_distrib
    alpha_lt := halpha_lt
    invAlpha_lt := hinvAlpha_lt
    invAlpha_mul := hinvAlpha_mul
    mulAlpha_eq := hmulAlpha_eq
    square_eq := hsquare_eq
    invert_zero := hinv_zero
    invert_isSome := by
      intro a ha ha0
      obtain ⟨y, hy, _, _⟩ := hinv_main a ha ha0
      rw [hy]
      rfl
    invert_lt := by
      intro a ha ha0
      obtain ⟨y, hy, hlt, _⟩ := hinv_main a ha ha0
      rw [hy, Option.getD_some]
      exact hlt
    invert_mul := by
      intro a ha ha0
      obtain ⟨y, hy, _, hm⟩ := hinv_main a ha ha0
      rw [hy, Option.getD_some]
      exact hm
    tr_sq := htr_sq
    tr_artin := htr_artin
    tr_alpha := htr_alpha
    tr_invAlpha := htr_invAlpha }

/-- The invariant holds at every tower level. -/
theorem inv_all : ∀ k, Inv k := by
  have aux : ∀ m, Inv (m + 2) := by
    intro m
    induction m with
    | zero => exact inv_two
    | succ n ihn => exact inv_step (n + 2) (by omega) ihn
  intro k
  match k with
  | 0 => exact inv_zero
  | 1 => exact inv_one
  | (m+2) => exact aux m

/-- Inversion of a nonzero element yields a two-sided inverse witness. -/
theorem invert_correct (k : Nat) : ∀ x, x < W k → x ≠ 0 →
    ∃ y, invert k x = some y ∧ mul k y x = 1 := by
  intro x hx hx0
  obtain ⟨y, hy⟩ := Option.isSome_iff_exists.mp ((inv_all k).invert_isSome x hx hx0)
  refine ⟨y, hy, ?_⟩
  have h := (inv_all k).invert_mul x hx hx0
  rwa [hy, Option.getD_some] at h

set_option maxRecDepth 10000 in
/-- The level-1 `INVERSE_8B` entries agree with the recursive inversion
formula over level 0. -/
theorem invert_one_rec :
    ∀ x, x < W 1 → invert 1 x =
      (invert 0 (mul 0 (lo 0 x) (lo 0 x ^^^ mulAlpha 0 (hi 0 x)) ^^^ square 0 (hi 0 x))).map
        fun d => join 0 (mul 0 d (lo 0 x ^^^ mulAlpha 0 (hi 0 x))) (mul 0 d (hi 0 x)) := by
  decide

set_option maxRecDepth 10000 in
/-- The level-2 `INVERSE_8B` entries agree with the recursive inversion
formula over level 1. -/
theorem invert_two_rec :
    ∀ x, x < W 2 → invert 2 x =
      (invert 1 (mul 1 (lo 1 x) (lo 1 x ^^^ mulAlpha 1 (hi 1 x)) ^^^ square 1 (hi 1 x))).map
        fun d => join 1 (mul 1 d (lo 1 x ^^^ mulAlpha 1 (hi 1 x))) (mul 1 d (hi 1 x)) := by
  decide

set_option maxRecDepth 10000 in
/-- The level-1 multiply-by-alpha agrees with the pair recurrence over
level 0. -/
theorem mulAlpha_one_rec :
    ∀ a, a < W 1 → mulAlpha 1 a = join 0 (hi 0 a) (lo 0 a ^^^ mulAlpha 0 (hi 0 a)) := by decide

set_option maxRecDepth 10000 in
/-- The level-2 multiply-by-alpha agrees with the pair recurrence over
level 1. -/
theorem mulAlpha_two_rec :
    ∀ a, a < W 2 → mulAlpha 2 a = join 1 (hi 1 a) (lo 1 a ^^^ mulAlpha 1 (hi 1 a)) := by decide

/-- C1: for every tower level `k` from 0 to 7 and every element `x` of
`GF(2^(2^k))`, if `x ≠ 0` then `invert` yields a `y` with
`multiply(y, x) = 1`, and `invert 0` yields none; moreover at each level
`m+1` the inverse follows the recurrence with `u = x0 + alpha * x1` and
`delta = x0 * u + x1^2`, returning `(dinv * u, dinv * x1)` when `delta` is
invertible and none otherwise. -/
theorem invert_spec (k : Nat) (hk : k ≤ 7) :
    (∀ x, x < W k → x ≠ 0 → ∃ y, invert k x = some y ∧ mul k y x = 1) ∧
    invert k 0 = none ∧
    (∀ m, k = m + 1 → ∀ x, x < W (m+1) →
      invert (m+1) x =
        (invert m (mul m (lo m x) (lo m x ^^^ mulAlpha m (hi m x)) ^^^ square m (hi m x))).map
          fun d => join m (mul m d (lo m x ^^^ mulAlpha m (hi m x))) (mul m d (hi m x))) := by
  refine ⟨invert_correct k, (inv_all k).invert_zero, ?_⟩
  rintro m rfl
  match m with
  | 0 => exact invert_one_rec
  | 1 => exact invert_two_rec
  | (n+2) => exact invert_eq_rec (n+2) (by omega)

/-- Witness for C1 at level 3 on the spec's concrete scenario value
`0xA5`. -/
theorem invert_spec_witness :
    (3 ≤ 7 ∧ ∃ y, invert 3 0xA5 = some y ∧ mul 3 y 0xA5 = 1) ∧ invert 3 0 = none :=
  ⟨⟨by decide, (invert_spec 3 (by decide)).1 0xA5 (by decide) (by decide)⟩,
    (invert_spec 3 (by decide)).2.1⟩

/-- C5: multiply-by-alpha at level `k` is multiplication by the fixed
generator constant; at level 0 it is the identity, at level 1 multiplication
by the constant `0x02`, at level 2 by the constant `0x04`, and at each level
`m+1` it maps the pair `(x0, x1)` to `(x1, x0 + alpha * x1)`. -/
theorem mulAlpha_spec (k : Nat) (hk : k ≤ 7) :
    (∀ a, a < W k → mulAlpha k a = mul k (alphaConst k) a) ∧
    alphaConst 1 = 2 ∧ alphaConst 2 = 4 ∧
    (k = 0 → ∀ a, mulAlpha 0 a = a) ∧
    (k = 1 → ∀ a, mulAlpha 1 a = mul 1 a 2) ∧
    (k = 2 → ∀ a, mulAlpha 2 a = mul 2 a 4) ∧
    (∀ m, k = m + 1 → ∀ a, a < W (m+1) →
      mulAlpha (m+1) a = join m (hi m a) (lo m a ^^^ mulAlpha m (hi m a))) := by
  refine ⟨(inv_all k).mulAlpha_eq, rfl, rfl, fun _ a => rfl, fun _ a => rfl, fun _ a => rfl, ?_⟩
  rintro m rfl
  match m with
  | 0 => exact mulAlpha_one_rec
  | 1 => exact mulAlpha_two_rec
  | (n+2) => exact mulAlpha_eq_rec (n+2) (by omega)

/-- Witness for C5 at level 2 on the element `0x09`. -/
theorem mulAlpha_spec_witness :
    (2 ≤ 7 ∧ mulAlpha 2 9 = mul 2 (alphaConst 2) 9) ∧
    (2 = 1 + 1 → ∀ a, a < W (1+1) →
      mulAlpha (1+1) a = join 1 (hi 1 a) (lo 1 a ^^^ mulAlpha 1 (hi 1 a))) :=
  ⟨⟨by decide, (mulAlpha_spec 2 (by decide)).1 9 (by decide)⟩,
    fun h => (mulAlpha_spec 2 (by decide)).2.2.2.2.2.2 1 h⟩


/-! ### Oracle commit metadata (`crates/core/src/piop/commit.rs`) -/

/-- Oracle descriptors: the `Committed` variant of `MultilinearPolyOracle`
with the fields the indexer reads, and a collapsed non-committed variant
(repeating oracles, projections, ..., which the indexer skips uniformly).
Oracle ids are stored in the descriptor as in the source; `OracleSetWF`
below ties them to positions in the set, which is the invariant that
`MultilinearOracleSet` (outside the sources) maintains. -/
inductive MultilinearPolyOracle where
  | committed (oracleId nVars towerLevel : Nat)
  | noncommitted (oracleId nVars towerLevel : Nat)
deriving DecidableEq

namespace MultilinearPolyOracle

def id : MultilinearPolyOracle → Nat
  | committed i _ _ => i
  | noncommitted i _ _ => i

def nVars : MultilinearPolyOracle → Nat
  | committed _ n _ => n
  | noncommitted _ n _ => n

def binaryTowerLevel : MultilinearPolyOracle → Nat
  | committed _ _ t => t
  | noncommitted _ _ t => t

def isCommitted : MultilinearPolyOracle → Bool
  | committed _ _ _ => true
  | noncommitted _ _ _ => false

end MultilinearPolyOracle

/-- Default oracle used by `getD` lookups. -/
def dfltO : MultilinearPolyOracle := .noncommitted 0 0 0

/-- The piop error kind relevant to the indexer (modelled from the spec
error design: `OracleTooSmall{id, min_vars}`; the `Error` enum lives outside
the sources). -/
inductive CommitError where
  | oracleTooSmall (id minVars : Nat)
deriving DecidableEq

/-- Embedding of `n_packed_vars_for_committed_oracle`:
`n_vars.checked_sub(TOWER_LEVEL - tower_level)` with `OracleTooSmall` on the
`None` branch. -/
def nPackedVarsForCommittedOracle (T : Nat) (o : MultilinearPolyOracle) :
    Except CommitError Nat :=
  if o.nVars < T - o.binaryTowerLevel then
    .error (.oracleTooSmall o.id (T - o.binaryTowerLevel))
  else
    .ok (o.nVars - (T - o.binaryTowerLevel))

/-- Modelled from the spec: reading a `ResizeableIndex` count (default 0). -/
def riGet (l : List Nat) (i : Nat) : Nat := l.getD i 0

/-- Modelled from the spec: the growing write performed through
`ResizeableIndex::get_mut`, extending the counts list with zeros up to index
`i` before setting it. -/
def riSet (l : List Nat) (i v : Nat) : List Nat :=
  (l ++ List.replicate (i + 1 - l.length) 0).set i v

/-- The record captured by the first pass (`CommitIDFirstPass`). -/
structure CommitIDFirstPass where
  nPackedVars : Nat
  idxInBucket : Nat
deriving DecidableEq

/-- Modelled from the spec: `SparseIndex::new(n)`, a vector of `n` empty
entries (`SparseIndex` lives in `binius_utils`, outside the sources). -/
def siNew (n : Nat) : List (Option CommitIDFirstPass) := List.replicate n none

/-- Modelled from the spec: reading a sparse index entry. -/
def siGet {A : Type} (l : List (Option A)) (i : Nat) : Option A := l.getD i none

/-- State of the first pass: the sparse oracle-id index and the counts per
packed variable count. -/
structure FirstPassState where
  index : List (Option CommitIDFirstPass)
  counts : List Nat

/-- One step of the first pass of `make_oracle_commit_meta`. -/
def firstPassStep (T : Nat) (st : FirstPassState) (o : MultilinearPolyOracle) :
    Except CommitError FirstPassState :=
  match o with
  | .committed i n t => do
    let pv ← nPackedVarsForCommittedOracle T (.committed i n t)
    let c := riGet st.counts pv
    .ok ⟨st.index.set i (some ⟨pv, c⟩), riSet st.counts pv (c + 1)⟩
  | .noncommitted _ _ _ => .ok st

/-- The first pass of `make_oracle_commit_meta` over the oracle set; the
sparse index starts sized to the oracle set. -/
def firstPass (T : Nat) (os : List MultilinearPolyOracle) :
    Except CommitError FirstPassState :=
  os.foldlM (firstPassStep T) ⟨siNew os.length, []⟩

/-- Commit metadata (modelled from the spec §3: counts per packed variable
count with dense prefix-sum ranges; `CommitMeta` lives in `verify.rs`,
outside the sources). -/
structure CommitMeta where
  nMultilinsByVars : List Nat
deriving DecidableEq

def CommitMeta.totalMultilins (cm : CommitMeta) : Nat := cm.nMultilinsByVars.sum

def CommitMeta.rangeStart (cm : CommitMeta) (v : Nat) : Nat := (cm.nMultilinsByVars.take v).sum

def CommitMeta.rangeEnd (cm : CommitMeta) (v : Nat) : Nat := (cm.nMultilinsByVars.take (v+1)).sum

/-- Embedding of `make_oracle_commit_meta`: the first pass counts
multilinears per packed variable count and records bucket positions; the
second pass adds the finalized range offsets. -/
def makeOracleCommitMeta (T : Nat) (os : List MultilinearPolyOracle) :
    Except CommitError (CommitMeta × List (Option Nat)) := do
  let st ← firstPass T os
  let cm : CommitMeta := ⟨st.counts⟩
  .ok (cm, (List.range os.length).map fun id =>
    (siGet st.index id).map fun fp => cm.rangeStart fp.nPackedVars + fp.idxInBucket)

/-- Packed variable count of an oracle (spec §3). -/
def pvOf (T : Nat) (o : MultilinearPolyOracle) : Nat := o.nVars - (T - o.binaryTowerLevel)

/-- Number of committed oracles with packed count `v`. -/
def countPv (T : Nat) (os : List MultilinearPolyOracle) (v : Nat) : Nat :=
  (os.filter fun o => o.isCommitted && pvOf T o == v).length

/-- Position of the oracle at position `i` within its bucket: the committed
oracles before it with the same packed count, in iteration order. -/
def rankAt (T : Nat) (os : List MultilinearPolyOracle) (i : Nat) : Nat :=
  countPv T (os.take i) (pvOf T (os.getD i dfltO))

/-- Well-formedness of an oracle set: stored ids equal positions. -/
def OracleSetWF (os : List MultilinearPolyOracle) : Prop :=
  ∀ i, i < os.length → (os.getD i dfltO).id = i

/-- Expected contents of the sparse index after the first `n` oracles. -/
def expectedIndex (T : Nat) (os : List MultilinearPolyOracle) (n j : Nat) :
    Option CommitIDFirstPass :=
  if j < n ∧ (os.getD j dfltO).isCommitted = true then
    some ⟨pvOf T (os.getD j dfltO), rankAt T os j⟩
  else none

/-! #### Counting and bucket lemmas -/

theorem countPv_cons (T : Nat) (o : MultilinearPolyOracle) (l : List MultilinearPolyOracle)
    (v : Nat) :
    countPv T (o :: l) v =
      (if o.isCommitted = true ∧ pvOf T o = v then 1 else 0) + countPv T l v := by
  rw [countPv, List.filter_cons]
  by_cases h : (o.isCommitted && pvOf T o == v) = true
  · have h2 : o.isCommitted = true ∧ pvOf T o = v := by
      simpa [Bool.and_eq_true, beq_iff_eq] using h
    rw [if_pos h, if_pos h2]
    simp [countPv]
    omega
  · have h2 : ¬(o.isCommitted = true ∧ pvOf T o = v) := by
      simpa [Bool.and_eq_true, beq_iff_eq] using h
    rw [if_neg h, if_neg h2]
    simp [countPv]

theorem countPv_append (T : Nat) (l1 l2 : List MultilinearPolyOracle) (v : Nat) :
    countPv T (l1 ++ l2) v = countPv T l1 v + countPv T l2 v := by
  simp [countPv, List.filter_append]

theorem countPv_prefix_le (T : Nat) (os : List MultilinearPolyOracle) {a b : Nat} (hab : a ≤ b)
    (v : Nat) : countPv T (os.take a) v ≤ countPv T (os.take b) v := by
  have h : os.take b = os.take a ++ (os.take b).drop a := by
    conv_lhs => rw [← List.take_append_drop a (os.take b)]
    rw [List.take_take, Nat.min_eq_left hab]
  rw [h, countPv_append]
  omega

theorem getD_eq_getElem (os : List MultilinearPolyOracle) (i : Nat) (h : i < os.length) :
    os.getD i dfltO = os[i] := by
  rw [List.getD_eq_getElem?_getD, List.getElem?_eq_getElem h, Option.getD_some]

theorem take_succ_getD (os : List MultilinearPolyOracle) (i : Nat) (h : i < os.length) :
    os.take (i+1) = os.take i ++ [os.getD i dfltO] := by
  rw [List.take_succ, List.getElem?_eq_getElem h, getD_eq_getElem os i h]
  rfl

theorem rankAt_zero (T : Nat) (os : List MultilinearPolyOracle) : rankAt T os 0 = 0 := rfl

theorem rankAt_cons (T : Nat) (o : MultilinearPolyOracle) (rest : List MultilinearPolyOracle)
    (i : Nat) :
    rankAt T (o :: rest) (i+1) =
      (if o.isCommitted = true ∧ pvOf T o = pvOf T (rest.getD i dfltO) then 1 else 0) +
        rankAt T rest i := by
  rw [rankAt, rankAt, List.take_succ_cons, List.getD_cons_succ, countPv_cons]

theorem rankAt_lt_countPv (T : Nat) (os : List MultilinearPolyOracle) (i : Nat)
    (hi : i < os.length) (hc : (os.getD i dfltO).isCommitted = true) :
    rankAt T os i < countPv T os (pvOf T (os.getD i dfltO)) := by
  have hsplit : os = os.take i ++ os.drop i := (List.take_append_drop i os).symm
  have hdrop : os.drop i = os.getD i dfltO :: os.drop (i+1) := by
    rw [List.drop_eq_getElem_cons hi, getD_eq_getElem os i hi]
  set v := pvOf T (os.getD i dfltO) with hv
  have h1 : 1 ≤ countPv T (os.drop i) v := by
    rw [hdrop, countPv_cons, if_pos ⟨hc, hv.symm⟩]
    omega
  have h2 : countPv T os v = countPv T (os.take i) v + countPv T (os.drop i) v := by
    conv_lhs => rw [hsplit]
    rw [countPv_append]
  rw [rankAt, ← hv, h2]
  omega

theorem rankAt_strict_mono (T : Nat) (os : List MultilinearPolyOracle) {i j : Nat}
    (hij : i < j) (hj : j ≤ os.length) (hci : (os.getD i dfltO).isCommitted = true)
    (hpv : pvOf T (os.getD i dfltO) = pvOf T (os.getD j dfltO)) :
    rankAt T os i < rankAt T os j := by
  have hi : i < os.length := by omega
  have hstep : countPv T (os.take (i+1)) (pvOf T (os.getD j dfltO)) =
      countPv T (os.take i) (pvOf T (os.getD j dfltO)) + 1 := by
    rw [take_succ_getD os i hi, countPv_append, countPv_cons, if_pos ⟨hci, hpv⟩]
    rfl
  have hmono := countPv_prefix_le T os (show i + 1 ≤ j by omega) (pvOf T (os.getD j dfltO))
  rw [rankAt, rankAt, hpv]
  omega

theorem rank_surjective (T : Nat) :
    ∀ (os : List MultilinearPolyOracle) (v r : Nat), r < countPv T os v →
      ∃ i, i < os.length ∧ (os.getD i dfltO).isCommitted = true ∧
        pvOf T (os.getD i dfltO) = v ∧ rankAt T os i = r := by
  intro os
  induction os with
  | nil =>
    intro v r h
    simp [countPv] at h
  | cons o rest ihr =>
    intro v r hr
    rw [countPv_cons] at hr
    by_cases hov : o.isCommitted = true ∧ pvOf T o = v
    · rcases Nat.eq_zero_or_pos r with rfl | hrpos
      · exact ⟨0, by simp, hov.1, hov.2, rankAt_zero T _⟩
      · rw [if_pos hov] at hr
        obtain ⟨i, hi, hc, hpv, hrank⟩ := ihr v (r - 1) (by omega)
        refine ⟨i + 1, by simp only [List.length_cons]; omega, by simpa using hc,
          by simpa using hpv, ?_⟩
        rw [rankAt_cons, hpv, if_pos ⟨hov.1, hov.2⟩, hrank]
        omega
    · rw [if_neg hov] at hr
      obtain ⟨i, hi, hc, hpv, hrank⟩ := ihr v r (by omega)
      refine ⟨i + 1, by simp only [List.length_cons]; omega, by simpa using hc,
        by simpa using hpv, ?_⟩
      rw [rankAt_cons, hpv, if_neg hov, hrank]
      omega

/-! #### Prefix-sum lemmas -/

theorem sum_take_succ (l : List Nat) (v : Nat) :
    (l.take (v+1)).sum = (l.take v).sum + l.getD v 0 := by
  by_cases h : v < l.length
  · simp only [List.take_succ, List.getElem?_eq_getElem h, Option.toList_some,
      List.sum_append, List.sum_cons, List.sum_nil, List.getD_eq_getElem?_getD,
      Option.getD_some]
    omega
  · rw [List.take_of_length_le (by omega), List.take_of_length_le (by omega),
      List.getD_eq_getElem?_getD, List.getElem?_eq_none (by omega)]
    simp

theorem sum_take_mono (l : List Nat) {v w : Nat} (h : v ≤ w) :
    (l.take v).sum ≤ (l.take w).sum := by
  have e : l.take w = l.take v ++ (l.take w).drop v := by
    conv_lhs => rw [← List.take_append_drop v (l.take w)]
    rw [List.take_take, Nat.min_eq_left h]
  rw [e, List.sum_append]
  omega

theorem sum_take_le (l : List Nat) (n : Nat) : (l.take n).sum ≤ l.sum := by
  conv_rhs => rw [← List.take_append_drop n l]
  rw [List.sum_append]
  omega

/-- Every commit index below the total lands in exactly one bucket range. -/
theorem mem_bucket (cm : CommitMeta) (m : Nat) (hm : m < cm.totalMultilins) :
    ∃ v, v < cm.nMultilinsByVars.length ∧ cm.rangeStart v ≤ m ∧ m < cm.rangeEnd v := by
  obtain ⟨l⟩ := cm
  induction l generalizing m with
  | nil => simp [CommitMeta.totalMultilins] at hm
  | cons a rest ihr =>
    by_cases hma : m < a
    · exact ⟨0, by simp, by simp [CommitMeta.rangeStart], by
        simpa [CommitMeta.rangeEnd] using hma⟩
    · have hm2 : m - a < (CommitMeta.mk rest).totalMultilins := by
        simp [CommitMeta.totalMultilins] at hm ⊢
        omega
      obtain ⟨v, hv, h1, h2⟩ := ihr (m - a) hm2
      refine ⟨v + 1, by simpa using Nat.succ_lt_succ hv, ?_, ?_⟩
      · simp only [CommitMeta.rangeStart, List.take_succ_cons, List.sum_cons] at h1 ⊢
        omega
      · simp only [CommitMeta.rangeEnd, List.take_succ_cons, List.sum_cons] at h2 ⊢
        omega

/-! #### ResizeableIndex lemmas -/

theorem riSet_length (l : List Nat) (i v : Nat) :
    (riSet l i v).length = max l.length (i+1) := by
  simp [riSet]
  omega

theorem riGet_riSet_self (l : List Nat) (i v : Nat) : riGet (riSet l i v) i = v := by
  rw [riGet, riSet, List.getD_eq_getElem?_getD, List.getElem?_set_self (by simp; omega)]
  rfl

theorem riGet_riSet_ne (l : List Nat) (i v j : Nat) (h : j ≠ i) :
    riGet (riSet l i v) j = riGet l j := by
  rw [riGet, riSet, List.getD_eq_getElem?_getD, List.getElem?_set_ne (Ne.symm h), riGet,
    List.getD_eq_getElem?_getD]
  by_cases hj : j < l.length
  · rw [List.getElem?_append_left hj]
  · rw [List.getElem?_append_right (by omega), List.getElem?_eq_none (l := l) (by omega)]
    simp [List.getElem?_replicate]
    split <;> simp

/-! #### SparseIndex lemmas -/

theorem siGet_siNew (m j : Nat) : siGet (siNew m) j = none := by
  rw [siGet, siNew, List.getD_eq_getElem?_getD, List.getElem?_replicate]
  split <;> rfl

theorem siGet_set_some {A : Type} (l : List (Option A)) (i : Nat) (v : A)
    (h : i < l.length) : siGet (l.set i (some v)) i = some v := by
  rw [siGet, List.getD_eq_getElem?_getD, List.getElem?_set_self h]
  rfl

theorem siGet_set_ne {A : Type} (l : List (Option A)) (i : Nat) (v : Option A)
    (j : Nat) (h : j ≠ i) : siGet (l.set i v) j = siGet l j := by
  rw [siGet, siGet, List.getD_eq_getElem?_getD, List.getD_eq_getElem?_getD,
    List.getElem?_set_ne (Ne.symm h)]

theorem siGet_range_map (f : Nat → Option Nat) (n j : Nat) :
    siGet ((List.range n).map f) j = if j < n then f j else none := by
  rw [siGet, List.getD_eq_getElem?_getD, List.getElem?_map]
  by_cases hj : j < n
  · rw [List.getElem?_range hj, if_pos hj]
    rfl
  · rw [List.getElem?_eq_none (by rw [List.length_range]; omega), if_neg hj]
    rfl

/-! #### The first-pass invariant -/

/-- Running the first pass over a prefix of the oracle set, from the
full-size initial state. -/
def firstPassAux (T : Nat) (os : List MultilinearPolyOracle) (n : Nat) :
    Except CommitError FirstPassState :=
  (os.take n).foldlM (firstPassStep T) ⟨siNew os.length, []⟩

theorem firstPassAux_length (T : Nat) (os : List MultilinearPolyOracle) :
    firstPassAux T os os.length = firstPass T os := by
  rw [firstPassAux, List.take_length, firstPass]

theorem firstPassAux_take_succ (T : Nat) (os : List MultilinearPolyOracle) (n : Nat)
    (hn : n < os.length) :
    firstPassAux T os (n+1) =
      firstPassAux T os n >>= fun st => firstPassStep T st (os.getD n dfltO) := by
  rw [firstPassAux, firstPassAux, take_succ_getD os n hn, List.foldlM_append]
  congr 1
  funext st
  show List.foldlM _ st [_] = _
  simp

theorem firstPass_inv (T : Nat) (os : List MultilinearPolyOracle) (hWF : OracleSetWF os)
    (hok : ∀ i, i < os.length → (os.getD i dfltO).isCommitted = true →
      T - (os.getD i dfltO).binaryTowerLevel ≤ (os.getD i dfltO).nVars) :
    ∀ n, n ≤ os.length →
      ∃ st, firstPassAux T os n = .ok st ∧
        (∀ v, riGet st.counts v = countPv T (os.take n) v) ∧
        (∀ o ∈ os.take n, o.isCommitted = true → pvOf T o < st.counts.length) ∧
        st.index.length = os.length ∧
        (∀ j, siGet st.index j = expectedIndex T os n j) := by
  intro n
  induction n with
  | zero =>
    intro _
    refine ⟨⟨siNew os.length, []⟩, rfl, fun v => rfl, ?_, ?_, ?_⟩
    · intro o ho
      simp at ho
    · simp [siNew]
    · intro j
      rw [siGet_siNew, expectedIndex,
        if_neg (fun hcon => absurd hcon.1 (by omega))]
  | succ n ihn =>
    intro hn1
    have hn : n < os.length := by omega
    obtain ⟨st, hst, hA, hL, hlen, hI⟩ := ihn (by omega)
    have hbridge : ∀ j, j ≠ n → expectedIndex T os (n+1) j = expectedIndex T os n j := by
      intro j hj
      rw [expectedIndex, expectedIndex]
      by_cases hjn : j < n
      · by_cases hcj : (os.getD j dfltO).isCommitted = true
        · rw [if_pos ⟨by omega, hcj⟩, if_pos ⟨hjn, hcj⟩]
        · rw [if_neg (fun hcon => hcj hcon.2), if_neg (fun hcon => hcj hcon.2)]
      · rw [if_neg (fun hcon => absurd hcon.1 (by omega)),
          if_neg (fun hcon => absurd hcon.1 (by omega))]
    cases ho : os.getD n dfltO with
    | noncommitted oid nv tl =>
      refine ⟨st, ?_, ?_, ?_, hlen, ?_⟩
      · rw [firstPassAux_take_succ T os n hn, hst, ho]
        rfl
      · intro v
        rw [take_succ_getD os n hn, countPv_append, ho]
        have hz : countPv T [MultilinearPolyOracle.noncommitted oid nv tl] v = 0 := by
          rw [countPv_cons]
          have hfalse : ¬((MultilinearPolyOracle.noncommitted oid nv tl).isCommitted = true ∧
              pvOf T (MultilinearPolyOracle.noncommitted oid nv tl) = v) := by
            intro hcon
            exact absurd hcon.1 (by simp [MultilinearPolyOracle.isCommitted])
          rw [if_neg hfalse]
          rfl
        rw [hz, Nat.add_zero]
        exact hA v
      · intro o hmem hc
        rw [take_succ_getD os n hn] at hmem
        rcases List.mem_append.mp hmem with h | h
        · exact hL o h hc
        · rw [List.mem_singleton.mp h, ho] at hc
          exact absurd hc (by simp [MultilinearPolyOracle.isCommitted])
      · intro j
        by_cases hj : j = n
        · subst hj
          rw [hI j, expectedIndex, expectedIndex]
          have hcf : ¬((os.getD j dfltO).isCommitted = true) := by
            rw [ho]
            simp [MultilinearPolyOracle.isCommitted]
          rw [if_neg (fun hcon => hcf hcon.2), if_neg (fun hcon => hcf hcon.2)]
        · rw [hI j, hbridge j hj]
    | committed oid nv tl =>
      have hid : oid = n := by
        have h := hWF n hn
        rw [ho] at h
        exact h
      subst hid
      have hco : (os.getD oid dfltO).isCommitted = true := by
        rw [ho]
        rfl
      have hpvok : T - tl ≤ nv := by
        have h := hok oid hn hco
        rw [ho] at h
        exact h
      have hpveq : pvOf T (os.getD oid dfltO) = nv - (T - tl) := by
        rw [ho]
        rfl
      have hstep : firstPassStep T st (os.getD oid dfltO) =
          .ok ⟨st.index.set oid
              (some ⟨nv - (T - tl), riGet st.counts (nv - (T - tl))⟩),
            riSet st.counts (nv - (T - tl)) (riGet st.counts (nv - (T - tl)) + 1)⟩ := by
        rw [ho]
        show (nPackedVarsForCommittedOracle T (.committed oid nv tl)).bind _ = _
        rw [nPackedVarsForCommittedOracle]
        have hnlt : ¬((MultilinearPolyOracle.committed oid nv tl).nVars <
            T - (MultilinearPolyOracle.committed oid nv tl).binaryTowerLevel) := by
          show ¬(nv < T - tl)
          omega
        rw [if_neg hnlt]
        rfl
      refine ⟨⟨st.index.set oid
          (some ⟨nv - (T - tl), riGet st.counts (nv - (T - tl))⟩),
          riSet st.counts (nv - (T - tl)) (riGet st.counts (nv - (T - tl)) + 1)⟩,
          ?_, ?_, ?_, ?_, ?_⟩
      · rw [firstPassAux_take_succ T os oid hn, hst]
        show firstPassStep T st (os.getD oid dfltO) = _
        rw [hstep]
      · intro v
        show riGet (riSet st.counts (nv - (T - tl)) (riGet st.counts (nv - (T - tl)) + 1)) v = _
        rw [take_succ_getD os oid hn, countPv_append, ho, countPv_cons]
        by_cases hv : v = nv - (T - tl)
        · subst hv
          rw [riGet_riSet_self, hA, if_pos ⟨rfl, rfl⟩, countPv]
          simp [countPv]
        · rw [riGet_riSet_ne _ _ _ _ hv, hA,
            if_neg (fun hcon => hv hcon.2.symm), countPv]
          simp [countPv]
      · intro o hmem hc
        show pvOf T o <
          (riSet st.counts (nv - (T - tl)) (riGet st.counts (nv - (T - tl)) + 1)).length
        rw [riSet_length]
        rw [take_succ_getD os oid hn] at hmem
        rcases List.mem_append.mp hmem with h | h
        · have := hL o h hc
          omega
        · rw [List.mem_singleton.mp h, ho]
          show nv - (T - tl) < _
          omega
      · show (st.index.set oid _).length = os.length
        rw [List.length_set]
        exact hlen
      · intro j
        show siGet (st.index.set oid
            (some ⟨nv - (T - tl), riGet st.counts (nv - (T - tl))⟩)) j = _
        by_cases hj : j = oid
        · subst hj
          rw [siGet_set_some _ _ _ (by rw [hlen]; exact hn),
            expectedIndex, if_pos ⟨by omega, hco⟩, rankAt, hpveq, hA]
        · rw [siGet_set_ne _ _ _ _ hj, hI j, hbridge j hj]

/-- Success characterization of `make_oracle_commit_meta`: commit metadata
counts are the per-bucket committed counts and the sparse index holds
exactly the dense offsets. -/
theorem makeOracleCommitMeta_ok (T : Nat) (os : List MultilinearPolyOracle)
    (hWF : OracleSetWF os)
    (hok : ∀ i, i < os.length → (os.getD i dfltO).isCommitted = true →
      T - (os.getD i dfltO).binaryTowerLevel ≤ (os.getD i dfltO).nVars) :
    ∃ cm index, makeOracleCommitMeta T os = .ok (cm, index) ∧
      (∀ v, riGet cm.nMultilinsByVars v = countPv T os v) ∧
      (∀ o ∈ os, o.isCommitted = true → pvOf T o < cm.nMultilinsByVars.length) ∧
      (∀ j, siGet index j =
        if j < os.length ∧ (os.getD j dfltO).isCommitted = true then
          some (cm.rangeStart (pvOf T (os.getD j dfltO)) + rankAt T os j)
        else none) := by
  obtain ⟨st, hst, hA, hL, hlen, hI⟩ := firstPass_inv T os hWF hok os.length (Nat.le_refl _)
  rw [firstPassAux_length] at hst
  rw [List.take_length] at hA hL
  refine ⟨⟨st.counts⟩,
    (List.range os.length).map (fun i => (siGet st.index i).map fun fp =>
      CommitMeta.rangeStart ⟨st.counts⟩ fp.nPackedVars + fp.idxInBucket),
    ?_, hA, hL, ?_⟩
  · rw [makeOracleCommitMeta, hst]
    rfl
  · intro j
    rw [siGet_range_map]
    by_cases hj : j < os.length
    · rw [if_pos hj]
      show ((siGet st.index j).map fun fp =>
        CommitMeta.rangeStart ⟨st.counts⟩ fp.nPackedVars + fp.idxInBucket) = _
      rw [hI j, expectedIndex]
      by_cases hcj : (os.getD j dfltO).isCommitted = true
      · rw [if_pos ⟨hj, hcj⟩, if_pos ⟨hj, hcj⟩]
        rfl
      · rw [if_neg (fun hcon => hcj hcon.2), if_neg (fun hcon => hcj hcon.2)]
        rfl
    · rw [if_neg hj, if_neg (fun hcon => absurd hcon.1 hj)]

/-! #### Error propagation through the first pass -/

theorem exc_bind_ok {E A B : Type} (a : A) (f : A → Except E B) :
    (Except.ok a >>= f) = f a := rfl

theorem exc_bind_error {E A B : Type} (e : E) (f : A → Except E B) :
    ((Except.error e : Except E A) >>= f) = .error e := rfl

theorem firstPassStep_ok_small (T : Nat) (st : FirstPassState) (oid nv tl : Nat)
    (hbad : nv < T - tl) :
    firstPassStep T st (.committed oid nv tl) = .error (.oracleTooSmall oid (T - tl)) := by
  show (nPackedVarsForCommittedOracle T (.committed oid nv tl)).bind _ = _
  rw [nPackedVarsForCommittedOracle,
    if_pos (show (MultilinearPolyOracle.committed oid nv tl).nVars <
      T - (MultilinearPolyOracle.committed oid nv tl).binaryTowerLevel from hbad)]
  rfl

theorem firstPassStep_ok_fits (T : Nat) (st : FirstPassState) (oid nv tl : Nat)
    (hfit : ¬(nv < T - tl)) :
    firstPassStep T st (.committed oid nv tl) =
      .ok ⟨st.index.set oid (some ⟨nv - (T - tl), riGet st.counts (nv - (T - tl))⟩),
        riSet st.counts (nv - (T - tl)) (riGet st.counts (nv - (T - tl)) + 1)⟩ := by
  show (nPackedVarsForCommittedOracle T (.committed oid nv tl)).bind _ = _
  rw [nPackedVarsForCommittedOracle,
    if_neg (show ¬((MultilinearPolyOracle.committed oid nv tl).nVars <
      T - (MultilinearPolyOracle.committed oid nv tl).binaryTowerLevel) from hfit)]
  rfl

theorem foldl_error_iff (T : Nat) :
    ∀ (os : List MultilinearPolyOracle) (st : FirstPassState),
      (∃ e, os.foldlM (firstPassStep T) st = .error e) ↔
        ∃ o ∈ os, o.isCommitted = true ∧ o.nVars < T - o.binaryTowerLevel := by
  intro os
  induction os with
  | nil =>
    intro st
    constructor
    · rintro ⟨e, he⟩
      rw [List.foldlM_nil] at he
      exact Except.noConfusion he
    · rintro ⟨o, ho, _⟩
      exact absurd ho (List.not_mem_nil o)
  | cons o rest ihr =>
    intro st
    rw [List.foldlM_cons]
    cases o with
    | noncommitted oid nv tl =>
      rw [show firstPassStep T st (.noncommitted oid nv tl) = .ok st from rfl, exc_bind_ok]
      constructor
      · intro h
        obtain ⟨o', hmem, hrest⟩ := (ihr st).mp h
        exact ⟨o', List.mem_cons_of_mem _ hmem, hrest⟩
      · rintro ⟨o', ho', hc, hlt⟩
        rcases List.mem_cons.mp ho' with rfl | hmem
        · exact absurd hc (by simp [MultilinearPolyOracle.isCommitted])
        · exact (ihr st).mpr ⟨o', hmem, hc, hlt⟩
    | committed oid nv tl =>
      by_cases hbad : nv < T - tl
      · rw [firstPassStep_ok_small T st oid nv tl hbad, exc_bind_error]
        constructor
        · intro _
          exact ⟨.committed oid nv tl, List.mem_cons_self _ _, rfl, hbad⟩
        · intro _
          exact ⟨.oracleTooSmall oid (T - tl), rfl⟩
      · rw [firstPassStep_ok_fits T st oid nv tl hbad, exc_bind_ok]
        constructor
        · intro h
          obtain ⟨o', hmem, hrest⟩ := (ihr _).mp h
          exact ⟨o', List.mem_cons_of_mem _ hmem, hrest⟩
        · rintro ⟨o', ho', hc, hlt⟩
          rcases List.mem_cons.mp ho' with rfl | hmem
          · exact absurd hlt hbad
          · exact (ihr _).mpr ⟨o', hmem, hc, hlt⟩

theorem foldl_error_elim (T : Nat) :
    ∀ (os : List MultilinearPolyOracle) (st : FirstPassState) (e : CommitError),
      os.foldlM (firstPassStep T) st = .error e →
      ∃ o ∈ os, o.isCommitted = true ∧ o.nVars < T - o.binaryTowerLevel ∧
        e = .oracleTooSmall o.id (T - o.binaryTowerLevel) := by
  intro os
  induction os with
  | nil =>
    intro st e he
    rw [List.foldlM_nil] at he
    exact Except.noConfusion he
  | cons o rest ihr =>
    intro st e he
    rw [List.foldlM_cons] at he
    cases o with
    | noncommitted oid nv tl =>
      rw [show firstPassStep T st (.noncommitted oid nv tl) = .ok st from rfl,
        exc_bind_ok] at he
      obtain ⟨o', hmem, h1, h2, h3⟩ := ihr st e he
      exact ⟨o', List.mem_cons_of_mem _ hmem, h1, h2, h3⟩
    | committed oid nv tl =>
      by_cases hbad : nv < T - tl
      · rw [firstPassStep_ok_small T st oid nv tl hbad, exc_bind_error] at he
        refine ⟨.committed oid nv tl, List.mem_cons_self _ _, rfl, hbad, ?_⟩
        have h := Except.error.inj he
        exact h.symm
      · rw [firstPassStep_ok_fits T st oid nv tl hbad, exc_bind_ok] at he
        obtain ⟨o', hmem, h1, h2, h3⟩ := ihr _ e he
        exact ⟨o', List.mem_cons_of_mem _ hmem, h1, h2, h3⟩

theorem makeOracleCommitMeta_error_iff (T : Nat) (os : List MultilinearPolyOracle) :
    (∃ e, makeOracleCommitMeta T os = .error e) ↔
      ∃ o ∈ os, o.isCommitted = true ∧ o.nVars < T - o.binaryTowerLevel := by
  rw [← foldl_error_iff T os ⟨siNew os.length, []⟩]
  cases hfp : firstPass T os with
  | error e =>
    have hm : makeOracleCommitMeta T os = .error e := by
      rw [makeOracleCommitMeta, hfp, exc_bind_error]
    rw [firstPass] at hfp
    constructor
    · intro _
      exact ⟨e, hfp⟩
    · intro _
      exact ⟨e, hm⟩
  | ok st =>
    have hm : makeOracleCommitMeta T os =
        .ok (⟨st.counts⟩, (List.range os.length).map fun id =>
          (siGet st.index id).map fun fp =>
            CommitMeta.rangeStart ⟨st.counts⟩ fp.nPackedVars + fp.idxInBucket) := by
      rw [makeOracleCommitMeta, hfp, exc_bind_ok]
    rw [firstPass] at hfp
    constructor
    · rintro ⟨e, he⟩
      rw [hm] at he
      exact Except.noConfusion he
    · rintro ⟨e, he⟩
      rw [hfp] at he
      exact Except.noConfusion he

theorem makeOracleCommitMeta_error_elim (T : Nat) (os : List MultilinearPolyOracle)
    (e : CommitError) (he : makeOracleCommitMeta T os = .error e) :
    ∃ o ∈ os, o.isCommitted = true ∧ o.nVars < T - o.binaryTowerLevel ∧
      e = .oracleTooSmall o.id (T - o.binaryTowerLevel) := by
  apply foldl_error_elim T os ⟨siNew os.length, []⟩ e
  cases hfp : firstPass T os with
  | error e' =>
    have hm : makeOracleCommitMeta T os = .error e' := by
      rw [makeOracleCommitMeta, hfp, exc_bind_error]
    rw [hm] at he
    have h := Except.error.inj he
    rw [firstPass] at hfp
    rw [hfp, h]
  | ok st =>
    have hm : makeOracleCommitMeta T os =
        .ok (⟨st.counts⟩, (List.range os.length).map fun id =>
          (siGet st.index id).map fun fp =>
            CommitMeta.rangeStart ⟨st.counts⟩ fp.nPackedVars + fp.idxInBucket) := by
      rw [makeOracleCommitMeta, hfp, exc_bind_ok]
    rw [hm] at he
    exact Except.noConfusion he

/-- Claim C6: `make_oracle_commit_meta` fails exactly when some committed
oracle has `n_vars` strictly below its tower-level deficit `T - t`; the
error is then `OracleTooSmall{id, min_vars = T - t}` for such an oracle;
and when every committed oracle has `n_vars` at least the deficit (packed
variable count zero included), the computation succeeds. -/
theorem commitMeta_oracleTooSmall_iff (T : Nat) (os : List MultilinearPolyOracle) :
    ((∃ e, makeOracleCommitMeta T os = .error e) ↔
      ∃ o ∈ os, o.isCommitted = true ∧ o.nVars < T - o.binaryTowerLevel) ∧
    (∀ e, makeOracleCommitMeta T os = .error e →
      ∃ o ∈ os, o.isCommitted = true ∧ o.nVars < T - o.binaryTowerLevel ∧
        e = CommitError.oracleTooSmall o.id (T - o.binaryTowerLevel)) ∧
    ((∀ o ∈ os, o.isCommitted = true → T - o.binaryTowerLevel ≤ o.nVars) →
      ∃ res, makeOracleCommitMeta T os = .ok res) := by
  refine ⟨makeOracleCommitMeta_error_iff T os,
    fun e he => makeOracleCommitMeta_error_elim T os e he, ?_⟩
  intro hfit
  cases hr : makeOracleCommitMeta T os with
  | error e =>
    obtain ⟨o, hmem, hc, hlt⟩ := (makeOracleCommitMeta_error_iff T os).mp ⟨e, hr⟩
    exact absurd (hfit o hmem hc) (by omega)
  | ok res =>
    exact ⟨res, rfl⟩

theorem commitMeta_oracleTooSmall_iff_witness :
    (∃ e, makeOracleCommitMeta 3 [MultilinearPolyOracle.committed 0 2 0] = .error e) ∧
    (∃ o ∈ [MultilinearPolyOracle.committed 0 2 0], o.isCommitted = true ∧
      o.nVars < 3 - o.binaryTowerLevel ∧
      CommitError.oracleTooSmall 0 3 =
        CommitError.oracleTooSmall o.id (3 - o.binaryTowerLevel)) ∧
    (∃ res, makeOracleCommitMeta 3 [MultilinearPolyOracle.committed 1 3 0] = .ok res) :=
  ⟨(commitMeta_oracleTooSmall_iff 3 [MultilinearPolyOracle.committed 0 2 0]).1.mpr
      ⟨MultilinearPolyOracle.committed 0 2 0, by simp, rfl, by decide⟩,
    (commitMeta_oracleTooSmall_iff 3 [MultilinearPolyOracle.committed 0 2 0]).2.1
      (CommitError.oracleTooSmall 0 3) rfl,
    (commitMeta_oracleTooSmall_iff 3 [MultilinearPolyOracle.committed 1 3 0]).2.2
      (by decide)⟩

/-! #### The commit-index bijection -/

/-- Claim C4: when `make_oracle_commit_meta` succeeds on a well-formed
oracle set, every committed oracle is mapped to
`range_by_vars(pv).start + rank`, where `rank` is its position among the
committed oracles of equal packed variable count in iteration order;
non-committed ids and out-of-range ids are absent; every assigned index
lies inside its packed-count range and below `total_multilins`; the map is
injective on assigned ids; and every value in `[0, total_multilins)` is
assigned to some committed oracle — hence the map is a bijection between
committed oracles and the dense range, grouped contiguously by packed
variable count in ascending order. -/
theorem commitMeta_index_bijection (T : Nat) (os : List MultilinearPolyOracle)
    (hWF : OracleSetWF os) (cm : CommitMeta) (index : List (Option Nat))
    (hres : makeOracleCommitMeta T os = .ok (cm, index)) :
    (∀ i, i < os.length → (os.getD i dfltO).isCommitted = true →
      siGet index i =
        some (cm.rangeStart (pvOf T (os.getD i dfltO)) + rankAt T os i)) ∧
    (∀ i, ¬(i < os.length ∧ (os.getD i dfltO).isCommitted = true) →
      siGet index i = none) ∧
    (∀ i m, siGet index i = some m →
      cm.rangeStart (pvOf T (os.getD i dfltO)) ≤ m ∧
      m < cm.rangeEnd (pvOf T (os.getD i dfltO)) ∧
      m < cm.totalMultilins) ∧
    (∀ i j m, siGet index i = some m → siGet index j = some m → i = j) ∧
    (∀ m, m < cm.totalMultilins → ∃ i, i < os.length ∧
      (os.getD i dfltO).isCommitted = true ∧ siGet index i = some m) := by
  have hok : ∀ i, i < os.length → (os.getD i dfltO).isCommitted = true →
      T - (os.getD i dfltO).binaryTowerLevel ≤ (os.getD i dfltO).nVars := by
    intro i hi hc
    by_contra hlt
    push_neg at hlt
    have hmem : os.getD i dfltO ∈ os := by
      rw [getD_eq_getElem os i hi]
      exact List.getElem_mem _
    obtain ⟨e, he⟩ := (makeOracleCommitMeta_error_iff T os).mpr
      ⟨os.getD i dfltO, hmem, hc, hlt⟩
    rw [hres] at he
    exact Except.noConfusion he
  obtain ⟨cm', index', hres', hcnt, hbound, hidx⟩ := makeOracleCommitMeta_ok T os hWF hok
  rw [hres] at hres'
  have hp := Except.ok.inj hres'
  have hcm : cm' = cm := (congrArg Prod.fst hp).symm
  have hix : index' = index := (congrArg Prod.snd hp).symm
  rw [hcm] at hcnt hbound
  rw [hcm, hix] at hidx
  have hrange : ∀ v, cm.rangeEnd v = cm.rangeStart v + riGet cm.nMultilinsByVars v := by
    intro v
    rw [CommitMeta.rangeEnd, CommitMeta.rangeStart, sum_take_succ]
    rfl
  have hend_le : ∀ v, cm.rangeEnd v ≤ cm.totalMultilins := by
    intro v
    rw [CommitMeta.rangeEnd, CommitMeta.totalMultilins]
    exact sum_take_le _ _
  refine ⟨?_, ?_, ?_, ?_, ?_⟩
  · intro i hi hc
    rw [hidx i, if_pos ⟨hi, hc⟩]
  · intro i hni
    rw [hidx i, if_neg hni]
  · intro i m hm
    rw [hidx i] at hm
    by_cases hc : i < os.length ∧ (os.getD i dfltO).isCommitted = true
    · rw [if_pos hc] at hm
      have hmeq := Option.some.inj hm
      have hrk := rankAt_lt_countPv T os i hc.1 hc.2
      have hcv := hcnt (pvOf T (os.getD i dfltO))
      have hre := hrange (pvOf T (os.getD i dfltO))
      have hto := hend_le (pvOf T (os.getD i dfltO))
      refine ⟨by omega, by omega, by omega⟩
    · rw [if_neg hc] at hm
      exact Option.noConfusion hm
  · intro i j m hmi hmj
    rw [hidx i] at hmi
    rw [hidx j] at hmj
    by_cases hci : i < os.length ∧ (os.getD i dfltO).isCommitted = true
    · by_cases hcj : j < os.length ∧ (os.getD j dfltO).isCommitted = true
      · rw [if_pos hci] at hmi
        rw [if_pos hcj] at hmj
        have ei := Option.some.inj hmi
        have ej := Option.some.inj hmj
        by_cases hvv : pvOf T (os.getD i dfltO) = pvOf T (os.getD j dfltO)
        · have hr : rankAt T os i = rankAt T os j := by
            have h := ei.trans ej.symm
            rw [hvv] at h
            omega
          by_contra hne
          rcases Nat.lt_or_ge i j with hij | hij
          · have := rankAt_strict_mono T os hij (Nat.le_of_lt hcj.1) hci.2 hvv
            omega
          · have hij' : j < i := by omega
            have := rankAt_strict_mono T os hij' (Nat.le_of_lt hci.1) hcj.2 hvv.symm
            omega
        · exfalso
          have hrki := rankAt_lt_countPv T os i hci.1 hci.2
          have hrkj := rankAt_lt_countPv T os j hcj.1 hcj.2
          have hcvi := hcnt (pvOf T (os.getD i dfltO))
          have hcvj := hcnt (pvOf T (os.getD j dfltO))
          have hrei := hrange (pvOf T (os.getD i dfltO))
          have hrej := hrange (pvOf T (os.getD j dfltO))
          rcases Nat.lt_or_ge (pvOf T (os.getD i dfltO)) (pvOf T (os.getD j dfltO))
            with hlt | hge
          · have hsep : cm.rangeEnd (pvOf T (os.getD i dfltO)) ≤
                cm.rangeStart (pvOf T (os.getD j dfltO)) := by
              rw [CommitMeta.rangeEnd, CommitMeta.rangeStart]
              exact sum_take_mono _ (by omega)
            omega
          · have hlt' : pvOf T (os.getD j dfltO) < pvOf T (os.getD i dfltO) := by
              omega
            have hsep : cm.rangeEnd (pvOf T (os.getD j dfltO)) ≤
                cm.rangeStart (pvOf T (os.getD i dfltO)) := by
              rw [CommitMeta.rangeEnd, CommitMeta.rangeStart]
              exact sum_take_mono _ (by omega)
            omega
      · rw [if_neg hcj] at hmj
        exact Option.noConfusion hmj
    · rw [if_neg hci] at hmi
      exact Option.noConfusion hmi
  · intro m hm
    obtain ⟨v, hvlen, h1, h2⟩ := mem_bucket cm m hm
    have hre := hrange v
    have hcv := hcnt v
    have hr : m - cm.rangeStart v < countPv T os v := by
      omega
    obtain ⟨i, hi, hc, hpv, hrank⟩ := rank_surjective T os v (m - cm.rangeStart v) hr
    refine ⟨i, hi, hc, ?_⟩
    rw [hidx i, if_pos ⟨hi, hc⟩, hpv, hrank]
    congr 1
    omega

/-- Oracle set exercising the bijection: two packed-count-0 committed
oracles, one packed-count-3 committed oracle and one skipped oracle. -/
def osW : List MultilinearPolyOracle :=
  [.committed 0 2 0, .noncommitted 1 3 0, .committed 2 4 1, .committed 3 2 0]

theorem commitMeta_index_bijection_witness :
    OracleSetWF osW ∧
    ∃ i, i < osW.length ∧ (osW.getD i dfltO).isCommitted = true ∧
      siGet [some 0, none, some 2, some 1] i = some 1 := by
  have hWF : OracleSetWF osW := by
    intro i hi
    match i, hi with
    | 0, _ => rfl
    | 1, _ => rfl
    | 2, _ => rfl
    | 3, _ => rfl
  refine ⟨hWF, ?_⟩
  exact (commitMeta_index_bijection 2 osW hWF ⟨[2, 0, 0, 1]⟩
    [some 0, none, some 2, some 1] rfl).2.2.2.2 1 (by decide)


/-! ### Tensor PCS (`src/poly_commit/tensor_pcs.rs`), at packing width 1

The packed field types `P`, `PI`, `PE` are instantiated at packing width 1,
so packed slices coincide with scalar lists; the scalar field is an
arbitrary commutative ring `F` with decidable equality. -/

/-- Verifier-only error kinds (modelled from the spec §7 error design:
`VerificationError` lives in `poly_commit/error.rs`, outside the sources). -/
inductive VerErr where
  | numberOfOpeningProofs (expected : Nat)
  | openedColumnSize (colIndex polyIndex expected actual : Nat)
  | partialEvaluationSize
  | incorrectEvaluation
  | incorrectPartialEvaluation
deriving DecidableEq

/-- The poly_commit error kinds (modelled from the spec §7 error design plus
the `Polynomial`-wrapped `IncorrectQuerySize{expected}` observable in the
sources; `Error` lives in `poly_commit/error.rs`, outside the sources.
Payload-free constructors stand for errors whose payload is a message
string or a boxed foreign error; `otherPolynomialError` stands for a
propagated polynomial error other than `IncorrectQuerySize`, and both
failure modes of `encode_ext` (the wrapped `EncodeError` and the propagated
transpose error) are collapsed into `encodeError` — neither is a
`VerificationError`. -/
inductive PcsError where
  | incorrectPolynomialSize (expected : Nat)
  | codeLengthPowerOfTwoRequired
  | extensionDegreePowerOfTwoRequired
  | packingWidthMustDivideNumberOfRows
  | packingWidthMustDivideCodeDimension
  | unalignedMessage
  | numBatchedMismatch
  | incorrectQuerySize (expected : Nat)
  | otherPolynomialError
  | encodeError
  | vectorCommit
  | verification (e : VerErr)
deriving DecidableEq

/-- Multilinear polynomial represented by its evaluation table on the
hypercube (modelled from the spec: `MultilinearExtension` lives in
`polynomial/`, outside the sources). -/
structure MLE (F : Type) where
  nVars : Nat
  evals : List F
deriving DecidableEq

/-- The representation invariant `from_values` maintains. -/
def MLE.WF {F : Type} (t : MLE F) : Prop := t.evals.length = 2^t.nVars

/-- Modelled from the spec: `MultilinearExtension::from_values` takes the
evaluation list, requires a power-of-two length, and sets `n_vars` to the
exact base-2 logarithm of the length. -/
def fromValues {F : Type} (v : List F) : Except PcsError (MLE F) :=
  if v.length ≠ 0 ∧ 2^(Nat.log2 v.length) = v.length then
    .ok ⟨Nat.log2 v.length, v⟩
  else .error .otherPolynomialError

/-- Embedding of `mix_t_primes` at width 1: reject any multilinear whose
variable count differs from `n_vars`, then form the elementwise
coefficient combination over the `2^n_vars` lanes. -/
def mixTPrimes {F : Type} [CommRing F] (nVars : Nat)
    (tPrimes : List (MLE F)) (mixingCoeffs : List F) : Except PcsError (MLE F) :=
  if tPrimes.any fun t => t.nVars != nVars then
    .error (.incorrectPolynomialSize nVars)
  else
    fromValues ((List.range (2^nVars)).map fun i =>
      (((tPrimes.map fun t => t.evals.getD i 0).zip mixingCoeffs).map
        fun p => p.1 * p.2).sum)

/-- Embedding of `log2_ceil_usize`. -/
def log2Ceil (n : Nat) : Nat := if n ≤ 1 then 0 else Nat.log2 (n - 1) + 1

/-- Embedding of `usize::is_power_of_two`. -/
def isPow2 (n : Nat) : Bool := n != 0 && 2^(Nat.log2 n) == n

/-- Embedding of `inner_product_unchecked`: the sum of elementwise products
over the common length. -/
def innerProduct {F : Type} [CommRing F] (a b : List F) : F :=
  ((a.zip b).map fun p => p.1 * p.2).sum

/-- Modelled from the spec: `MultilinearQuery::with_full_query` expands the
challenges into the tensor coefficients, bit `j` of index `i` selecting
`α_j` against `1 - α_j`. -/
def tensorExpansion {F : Type} [CommRing F] (chals : List F) : List F :=
  chals.foldl (fun acc a => (acc.map fun c => c * (1 - a)) ++ (acc.map fun c => c * a)) [1]

/-- Modelled from the spec: `MultilinearExtension::evaluate` is the inner
product of the query's tensor expansion with the evaluation table. -/
def mleEvaluate {F : Type} [CommRing F] (t : MLE F) (q : List F) : F :=
  innerProduct (tensorExpansion q) t.evals

/-- Modelled from the spec: the challenger is a sequential sampling and
observation oracle, threaded as explicit state. -/
structure Challenger (F St : Type) where
  sampleVec : St → Nat → (List F × St)
  sampleBits : St → Nat → (Nat × St)
  observeSlice : St → List F → St

/-- Constructor-validated tensor PCS dimensions: `log_rows`, the code
dimension bits, `log2 ι` for `ι` the intermediate-over-base field degree
(the block size), the code length and the number of column test queries. -/
structure PCSParams where
  logRows : Nat
  dimBits : Nat
  logBlockSize : Nat
  codeLen : Nat
  nTestQueries : Nat
deriving DecidableEq

def PCSParams.logNCols (pp : PCSParams) : Nat := pp.dimBits + pp.logBlockSize

/-- `n_vars() = log_rows() + log_cols()`. -/
def PCSParams.nVars (pp : PCSParams) : Nat := pp.logRows + pp.logNCols

/-- `log2_strict_usize(code.len())`; the code length is a power of two by
construction. -/
def PCSParams.codeLenBits (pp : PCSParams) : Nat := Nat.log2 pp.codeLen

/-- The evaluation `Proof` at width 1: each VCS opening carries the opened
column of every polynomial in the batch. -/
structure VProof (F V : Type) where
  nPolys : Nat
  mixedTPrime : MLE F
  vcsProofs : List (List (List F) × V)

/-- Embedding of `TensorPCS::new` on the dimension data: the validation
sequence in source order. `w.iDeg` is the intermediate-over-base degree and
`w.eDeg` the extension-over-base degree. -/
def tensorPCSNew (pWidth piWidth peWidth iDeg eDeg : Nat)
    (logRows codeLen codeDim : Nat) : Except PcsError Unit :=
  if !isPow2 codeLen then .error .codeLengthPowerOfTwoRequired
  else if !isPow2 iDeg then .error .extensionDegreePowerOfTwoRequired
  else if !isPow2 eDeg then .error .extensionDegreePowerOfTwoRequired
  else if 2^logRows % pWidth ≠ 0 then .error .packingWidthMustDivideNumberOfRows
  else if 2^logRows % piWidth ≠ 0 then .error .packingWidthMustDivideNumberOfRows
  else if codeDim % piWidth ≠ 0 then .error .packingWidthMustDivideCodeDimension
  else if codeDim % peWidth ≠ 0 then .error .packingWidthMustDivideCodeDimension
  else .ok ()

/-- Inner loop of `check_proof_shape`: each opened column must have
`2^log_rows` scalars (width 1: `poly_col.len() * PI::WIDTH = poly_col.len()`). -/
def checkPolyCols {F : Type} (nRows colIdx : Nat) :
    Nat → List (List F) → Except PcsError Unit
  | _, [] => .ok ()
  | polyIdx, col :: rest =>
    if col.length ≠ nRows then
      .error (.verification (.openedColumnSize colIdx polyIdx nRows col.length))
    else checkPolyCols nRows colIdx (polyIdx + 1) rest

/-- Outer loop of `check_proof_shape`: each opening must carry `n_polys`
columns of the right size. -/
def checkCols {F V : Type} (nRows nPolys : Nat) :
    Nat → List (List (List F) × V) → Except PcsError Unit
  | _, [] => .ok ()
  | colIdx, (polysCol, _) :: rest =>
    if polysCol.length ≠ nPolys then .error .numBatchedMismatch
    else match checkPolyCols nRows colIdx 0 polysCol with
      | .error e => .error e
      | .ok _ => checkCols nRows nPolys (colIdx + 1) rest

/-- Embedding of `check_proof_shape`. -/
def checkProofShape {F V : Type} (pp : PCSParams) (proof : VProof F V) :
    Except PcsError Unit :=
  if proof.vcsProofs.length ≠ pp.nTestQueries then
    .error (.verification (.numberOfOpeningProofs pp.nTestQueries))
  else match checkCols (2^pp.logRows) proof.nPolys 0 proof.vcsProofs with
    | .error e => .error e
    | .ok _ =>
      if proof.mixedTPrime.nVars ≠ pp.logNCols then
        .error (.verification .partialEvaluationSize)
      else .ok ()

/-- The verifier's VCS-opening loop: sample a column index, verify the
opening (failures become `VectorCommit`), and record `(index, cols)`; it
short-circuits on the first failure, as the collected source iterator does. -/
def verifyColumns {F St V : Type} (ch : Challenger F St)
    (vcsVerify : Nat → V → List (List F) → Except Unit Unit) (codeLenBits : Nat) :
    St → List (List (List F) × V) →
      (Except PcsError (List (Nat × List (List F))) × St)
  | st, [] => (.ok [], st)
  | st, (cols, vp) :: rest =>
    let is1 := ch.sampleBits st codeLenBits
    match vcsVerify is1.1 vp cols with
    | .error _ => (.error .vectorCommit, is1.2)
    | .ok _ =>
      match verifyColumns ch vcsVerify codeLenBits is1.2 rest with
      | (.ok l, st2) => (.ok ((is1.1, cols) :: l), st2)
      | (.error e, st2) => (.error e, st2)

/-- The sequence of column tests: for each opened index `r` and block
sub-index `j < ι`, the expected codeword scalar `u'[r·ι + j]` is paired
with the `j`-th base-field stripe of every polynomial's opened column
(`transposeCol` stands for the scalar transposition into stripes, which
lives in `field/`, outside the sources; it is total, as the source
`.expect`s its result). -/
def columnTests {F : Type} [CommRing F] (blockSize : Nat) (uPrime : List F)
    (transposeCol : List F → List (List F))
    (columns : List (Nat × List (List F))) : List (F × List (List F)) :=
  columns.flatMap fun ic =>
    (List.range blockSize).map fun j =>
      (uPrime.getD (ic.1 * blockSize + j) 0,
        ic.2.map fun col => (transposeCol col).getD j [])

/-- The verifier's final loop: each batched column evaluation must match
its expected codeword scalar. -/
def checkColumnTests {F : Type} [CommRing F] [DecidableEq F]
    (coeffs : List F) (hqExp : List F) :
    List (F × List (List F)) → Except PcsError Unit
  | [] => .ok ()
  | (expected, leaves) :: rest =>
    if innerProduct (leaves.map fun leaf => innerProduct hqExp leaf) coeffs ≠ expected then
      .error (.verification .incorrectPartialEvaluation)
    else checkColumnTests coeffs hqExp rest

/-- Embedding of `verify_evaluation` at width 1, with the challenger state
threaded explicitly and the collaborators (`encode_ext`'s failures, the VCS
verification, the scalar transposition) abstracted; the step order is the
source order. -/
def verifyEvaluation {F St V : Type} [CommRing F] [DecidableEq F]
    (pp : PCSParams) (ch : Challenger F St)
    (encodeExt : List F → Except Unit (List F))
    (vcsVerify : Nat → V → List (List F) → Except Unit Unit)
    (transposeCol : List F → List (List F))
    (st0 : St) (query : List F) (proof : VProof F V) (values : List F) :
    Except PcsError Unit × St :=
  if values.length ≠ proof.nPolys then (.error .numBatchedMismatch, st0)
  else
    let s1 := ch.sampleVec st0 (log2Ceil proof.nPolys)
    let mixingCoefficients := (tensorExpansion s1.1).take proof.nPolys
    let value := innerProduct values mixingCoefficients
    if query.length ≠ pp.nVars then
      (.error (.incorrectQuerySize pp.nVars), s1.2)
    else
      match checkProofShape pp proof with
      | .error e => (.error e, s1.2)
      | .ok _ =>
        let st2 := ch.observeSlice s1.2 proof.mixedTPrime.evals
        if mleEvaluate proof.mixedTPrime (query.take pp.logNCols) ≠ value then
          (.error (.verification .incorrectEvaluation), st2)
        else
          match encodeExt proof.mixedTPrime.evals with
          | .error _ => (.error .encodeError, st2)
          | .ok uPrime =>
            match verifyColumns ch vcsVerify pp.codeLenBits st2 proof.vcsProofs with
            | (.error e, st3) => (.error e, st3)
            | (.ok columns, st3) =>
              (checkColumnTests mixingCoefficients
                (tensorExpansion (query.drop pp.logNCols))
                (columnTests (2^pp.logBlockSize) uPrime transposeCol columns), st3)

/-- The prover's test-query loop: sample a column index, produce the VCS
opening (failures become `VectorCommit`) and collect every committed
matrix's column at that index. -/
def proveColumns {F St V M : Type} (ch : Challenger F St)
    (vcsProve : Nat → Except Unit V) (rowSlice : M → Nat → List F)
    (mats : List M) (codeLenBits : Nat) :
    Nat → St → (Except PcsError (List (List (List F) × V)) × St)
  | 0, st => (.ok [], st)
  | n + 1, st =>
    let is1 := ch.sampleBits st codeLenBits
    match vcsProve is1.1 with
    | .error _ => (.error .vectorCommit, is1.2)
    | .ok vp =>
      match proveColumns ch vcsProve rowSlice mats codeLenBits n is1.2 with
      | (.ok l, st2) => (.ok ((mats.map fun m => rowSlice m is1.1, vp) :: l), st2)
      | (.error e, st2) => (.error e, st2)

/-- Embedding of `prove_evaluation` at width 1, challenger state threaded
explicitly; `evaluate_partial_high` and the VCS opening are abstracted
collaborators (their failures keep their own error kinds); the step order
is the source order. -/
def proveEvaluation {F St V M : Type} [CommRing F]
    (pp : PCSParams) (ch : Challenger F St)
    (evalPartialHigh : MLE F → List F → Except Unit (MLE F))
    (vcsProve : Nat → Except Unit V) (rowSlice : M → Nat → List F)
    (st0 : St) (mats : List M) (polys : List (MLE F)) (query : List F) :
    Except PcsError (VProof F V) × St :=
  let nPolys := polys.length
  let s1 := ch.sampleVec st0 (log2Ceil nPolys)
  let mixingCoefficients := (tensorExpansion s1.1).take nPolys
  if mats.length ≠ nPolys then (.error .numBatchedMismatch, s1.2)
  else if query.length ≠ pp.nVars then
    (.error (.incorrectQuerySize pp.nVars), s1.2)
  else
    match polys.mapM fun t => evalPartialHigh t (query.drop pp.logNCols) with
    | .error _ => (.error .otherPolynomialError, s1.2)
    | .ok tPrimes =>
      match mixTPrimes pp.logNCols tPrimes mixingCoefficients with
      | .error e => (.error e, s1.2)
      | .ok tPrime =>
        let st2 := ch.observeSlice s1.2 tPrime.evals
        match proveColumns ch vcsProve rowSlice mats pp.codeLenBits pp.nTestQueries st2 with
        | (.error e, st3) => (.error e, st3)
        | (.ok merkleProofs, st3) => (.ok ⟨nPolys, tPrime, merkleProofs⟩, st3)

/-! #### Arithmetic and list support lemmas -/

theorem log2_two_pow (k : Nat) : Nat.log2 (2^k) = k := by
  rw [Nat.log2_eq_log_two]
  exact Nat.log_pow (b := 2) (by omega) k

theorem isPow2_iff (n : Nat) : isPow2 n = true ↔ ∃ k, n = 2^k := by
  constructor
  · intro h
    rw [isPow2, Bool.and_eq_true, bne_iff_ne, beq_iff_eq] at h
    exact ⟨Nat.log2 n, h.2.symm⟩
  · rintro ⟨k, rfl⟩
    rw [isPow2, Bool.and_eq_true, bne_iff_ne, beq_iff_eq]
    exact ⟨(Nat.two_pow_pos k).ne', by rw [log2_two_pow]⟩

theorem dvd_iff_mod (k n : Nat) : k ∣ n ↔ n % k = 0 :=
  ⟨fun ⟨c, hc⟩ => by rw [hc]; exact Nat.mul_mod_right k c, Nat.dvd_of_mod_eq_zero⟩

theorem three_not_pow2 : ¬∃ k, (3:Nat) = 2^k := by
  rintro ⟨k, hk⟩
  rcases k with _ | _ | k
  · norm_num at hk
  · norm_num at hk
  · rw [pow_succ, pow_succ] at hk
    have h1 : 1 ≤ 2^k := Nat.one_le_two_pow (n := k)
    omega

theorem getD_map_range {B : Type} (f : Nat → B) (d : B) (N v : Nat) (hv : v < N) :
    ((List.range N).map f).getD v d = f v := by
  rw [List.getD_eq_getElem?_getD, List.getElem?_map, List.getElem?_range hv]
  rfl

theorem getD_map_lt {A B : Type} (l : List A) (f : A → B) (d : A) (d2 : B) (i : Nat)
    (hi : i < l.length) : (l.map f).getD i d2 = f (l.getD i d) := by
  rw [List.getD_eq_getElem?_getD, List.getElem?_map, List.getElem?_eq_getElem hi,
    Option.map_some', Option.getD_some, List.getD_eq_getElem?_getD,
    List.getElem?_eq_getElem hi, Option.getD_some]

theorem zip_mul_sum {F : Type} [CommRing F] :
    ∀ (xs ys : List F), ((xs.zip ys).map fun p => p.1 * p.2).sum =
      ∑ i ∈ Finset.range (min xs.length ys.length), xs.getD i 0 * ys.getD i 0 := by
  intro xs
  induction xs with
  | nil => intro ys; simp
  | cons x rest ihr =>
    intro ys
    cases ys with
    | nil => simp
    | cons y yrest =>
      rw [List.zip_cons_cons, List.map_cons, List.sum_cons, ihr yrest]
      have hm : min (x :: rest).length (y :: yrest).length =
          min rest.length yrest.length + 1 := by
        simp only [List.length_cons]
        omega
      rw [hm, Finset.sum_range_succ']
      have hsum : ∀ i ∈ Finset.range (min rest.length yrest.length),
          (x :: rest).getD (i+1) 0 * (y :: yrest).getD (i+1) 0 =
            rest.getD i 0 * yrest.getD i 0 := fun i _ => by
        rw [List.getD_cons_succ, List.getD_cons_succ]
      rw [Finset.sum_congr rfl hsum]
      show x * y + _ = _ + (x :: rest).getD 0 0 * (y :: yrest).getD 0 0
      rw [List.getD_cons_zero, List.getD_cons_zero]
      exact add_comm _ _

/-! #### Error shapes of the verifier tail -/

theorem verifyColumns_error {F St V : Type} (ch : Challenger F St)
    (vV : Nat → V → List (List F) → Except Unit Unit) (clb : Nat) :
    ∀ (l : List (List (List F) × V)) (st : St) (e : PcsError) (st2 : St),
      verifyColumns ch vV clb st l = (.error e, st2) → e = .vectorCommit := by
  intro l
  induction l with
  | nil =>
    intro st e st2 h
    have h1 : (Except.ok [] : Except PcsError (List (Nat × List (List F)))) = .error e :=
      congrArg Prod.fst h
    exact Except.noConfusion h1
  | cons hd rest ihr =>
    intro st e st2 h
    obtain ⟨cols, vp⟩ := hd
    rw [verifyColumns] at h
    cases hv : vV (ch.sampleBits st clb).1 vp cols with
    | error u =>
      rw [hv] at h
      have h1 : (Except.error PcsError.vectorCommit :
          Except PcsError (List (Nat × List (List F)))) = .error e := congrArg Prod.fst h
      exact (Except.error.inj h1).symm
    | ok u =>
      rw [hv] at h
      rcases hrec : verifyColumns ch vV clb (ch.sampleBits st clb).2 rest with ⟨r2, st3⟩
      rw [hrec] at h
      cases r2 with
      | ok l2 =>
        have h1 : (Except.ok (((ch.sampleBits st clb).1, cols) :: l2) :
            Except PcsError (List (Nat × List (List F)))) = .error e := congrArg Prod.fst h
        exact Except.noConfusion h1
      | error e2 =>
        have h1 : (Except.error e2 :
            Except PcsError (List (Nat × List (List F)))) = .error e := congrArg Prod.fst h
        rw [← Except.error.inj h1]
        exact ihr (ch.sampleBits st clb).2 e2 st3 hrec

theorem checkColumnTests_error {F : Type} [CommRing F] [DecidableEq F]
    (coeffs hqExp : List F) :
    ∀ (tests : List (F × List (List F))) (e : PcsError),
      checkColumnTests coeffs hqExp tests = .error e →
        e = .verification .incorrectPartialEvaluation := by
  intro tests
  induction tests with
  | nil =>
    intro e h
    exact Except.noConfusion h
  | cons hd rest ihr =>
    intro e h
    obtain ⟨expected, leaves⟩ := hd
    rw [checkColumnTests] at h
    by_cases hc : innerProduct (leaves.map fun leaf => innerProduct hqExp leaf) coeffs ≠ expected
    · rw [if_pos hc] at h
      exact (Except.error.inj h).symm
    · rw [if_neg hc] at h
      exact ihr e h

/-! #### Claims about `mix_t_primes` -/

/-- Claim C2: when every input multilinear has exactly `n_vars` variables
and the coefficient list has the batch's length, `mix_t_primes` succeeds
and returns the multilinear whose value at every hypercube point `v` is
`Σᵢ cᵢ · t'ᵢ(v)`; and it fails with `IncorrectPolynomialSize{expected =
n_vars}` whenever some input has a different variable count. -/
theorem mixTPrimes_spec {F : Type} [CommRing F] (nVars : Nat)
    (tPrimes : List (MLE F)) (coeffs : List F)
    (_hwf : ∀ t ∈ tPrimes, t.WF) (hlen : coeffs.length = tPrimes.length) :
    ((∀ t ∈ tPrimes, t.nVars = nVars) →
      ∃ t2, mixTPrimes nVars tPrimes coeffs = .ok t2 ∧ t2.nVars = nVars ∧
        t2.evals.length = 2^nVars ∧
        ∀ v, v < 2^nVars → t2.evals.getD v 0 =
          ∑ i ∈ Finset.range tPrimes.length,
            coeffs.getD i 0 * (tPrimes.getD i ⟨0, []⟩).evals.getD v 0) ∧
    ((∃ t ∈ tPrimes, t.nVars ≠ nVars) →
      mixTPrimes nVars tPrimes coeffs = .error (.incorrectPolynomialSize nVars)) := by
  constructor
  · intro hall
    have hany : (tPrimes.any fun t => t.nVars != nVars) = false := by
      rw [List.any_eq_false]
      intro t ht
      rw [bne_iff_ne]
      exact fun hcon => hcon (hall t ht)
    set L := (List.range (2^nVars)).map (fun i =>
      (((tPrimes.map fun t => t.evals.getD i 0).zip coeffs).map
        fun p => p.1 * p.2).sum) with hL
    have hlen2 : L.length = 2^nVars := by
      rw [hL, List.length_map, List.length_range]
    have hcond : L.length ≠ 0 ∧ 2^(Nat.log2 L.length) = L.length := by
      rw [hlen2, log2_two_pow]
      exact ⟨(Nat.two_pow_pos nVars).ne', rfl⟩
    refine ⟨⟨Nat.log2 L.length, L⟩, ?_, ?_, hlen2, ?_⟩
    · rw [mixTPrimes, if_neg (by rw [hany]; exact Bool.false_ne_true), ← hL,
        fromValues, if_pos hcond]
    · show Nat.log2 L.length = nVars
      rw [hlen2, log2_two_pow]
    · intro v hv
      show L.getD v 0 = _
      rw [hL, getD_map_range _ _ _ v hv, zip_mul_sum]
      have hm : min (tPrimes.map fun t => t.evals.getD v 0).length coeffs.length =
          tPrimes.length := by
        rw [List.length_map, hlen]
        omega
      rw [hm]
      refine Finset.sum_congr rfl fun i hi => ?_
      rw [getD_map_lt tPrimes _ ⟨0, []⟩ 0 i (Finset.mem_range.mp hi)]
      exact mul_comm _ _
  · rintro ⟨t, ht, hne⟩
    have hany : (tPrimes.any fun t => t.nVars != nVars) = true := by
      rw [List.any_eq_true]
      exact ⟨t, ht, by rw [bne_iff_ne]; exact hne⟩
    rw [mixTPrimes, if_pos hany]

theorem mixTPrimes_spec_witness :
    (∀ t ∈ [MLE.mk 1 [(1 : Int), 2], MLE.mk 1 [3, 4]], t.WF) ∧
    ∃ t2, mixTPrimes 1 [MLE.mk 1 [(1 : Int), 2], MLE.mk 1 [3, 4]] [5, 7] = .ok t2 ∧
      t2.nVars = 1 ∧ t2.evals.length = 2^1 ∧
      ∀ v, v < 2^1 → t2.evals.getD v 0 =
        ∑ i ∈ Finset.range 2, ([(5 : Int), 7]).getD i 0 *
          (([MLE.mk 1 [(1 : Int), 2], MLE.mk 1 [3, 4]]).getD i ⟨0, []⟩).evals.getD v 0 :=
  ⟨by intro t ht; fin_cases ht <;> rfl,
    (mixTPrimes_spec 1 [MLE.mk 1 [(1 : Int), 2], MLE.mk 1 [3, 4]] [5, 7]
      (by intro t ht; fin_cases ht <;> rfl) rfl).1 (by decide)⟩

/-- Claim C9: on the empty batch `mix_t_primes` does not fail — for every
`n_vars` it returns the zero multilinear over `n_vars` variables, with all
`2^n_vars` evaluations equal to 0. -/
theorem mixTPrimes_empty_spec {F : Type} [CommRing F] (nVars : Nat) :
    ∃ t2, mixTPrimes (F := F) nVars [] [] = .ok t2 ∧ t2.nVars = nVars ∧
      t2.evals.length = 2^nVars ∧ ∀ x ∈ t2.evals, x = 0 := by
  set L := (List.range (2^nVars)).map (fun i =>
    ((((List.nil (α := MLE F)).map fun t => t.evals.getD i 0).zip
      (List.nil (α := F))).map fun p => p.1 * p.2).sum) with hL
  have hlen2 : L.length = 2^nVars := by
    rw [hL, List.length_map, List.length_range]
  have hcond : L.length ≠ 0 ∧ 2^(Nat.log2 L.length) = L.length := by
    rw [hlen2, log2_two_pow]
    exact ⟨(Nat.two_pow_pos nVars).ne', rfl⟩
  refine ⟨⟨Nat.log2 L.length, L⟩, ?_, ?_, hlen2, ?_⟩
  · rw [show mixTPrimes (F := F) nVars [] [] =
      fromValues ((List.range (2^nVars)).map (fun i =>
        ((((List.nil (α := MLE F)).map fun t => t.evals.getD i 0).zip
          (List.nil (α := F))).map fun p => p.1 * p.2).sum)) from rfl, ← hL,
      fromValues, if_pos hcond]
  · show Nat.log2 L.length = nVars
    rw [hlen2, log2_two_pow]
  · intro x hx
    rw [hL] at hx
    obtain ⟨i, hi, rfl⟩ := List.mem_map.mp hx
    rfl

theorem mixTPrimes_empty_spec_witness :
    ∃ t2, mixTPrimes (F := Int) 2 [] [] = .ok t2 ∧ t2.nVars = 2 ∧
      t2.evals.length = 2^2 ∧ ∀ x ∈ t2.evals, x = 0 :=
  mixTPrimes_empty_spec 2

/-! #### Claims about `TensorPCS::new` -/

/-- Claim C7: the constructor fails with `CodeLengthPowerOfTwoRequired`
when the code length is not a power of two; with
`ExtensionDegreePowerOfTwoRequired` when the intermediate-over-base or
extension-over-base degree is not a power of two; with
`PackingWidthMustDivideNumberOfRows` when `P::WIDTH` or `PI::WIDTH` does
not divide `2^log_rows`; with `PackingWidthMustDivideCodeDimension` when
`PI::WIDTH` or `PE::WIDTH` does not divide the code dimension; and
succeeds when all conditions hold, each check in source precedence order. -/
theorem tensorPCSNew_spec (pW piW peW iDeg eDeg logRows codeLen codeDim : Nat) :
    ((¬∃ k, codeLen = 2^k) →
      tensorPCSNew pW piW peW iDeg eDeg logRows codeLen codeDim =
        .error .codeLengthPowerOfTwoRequired) ∧
    ((∃ k, codeLen = 2^k) → ((¬∃ k, iDeg = 2^k) ∨ (¬∃ k, eDeg = 2^k)) →
      tensorPCSNew pW piW peW iDeg eDeg logRows codeLen codeDim =
        .error .extensionDegreePowerOfTwoRequired) ∧
    ((∃ k, codeLen = 2^k) → (∃ k, iDeg = 2^k) → (∃ k, eDeg = 2^k) →
      (¬(pW ∣ 2^logRows) ∨ ¬(piW ∣ 2^logRows)) →
      tensorPCSNew pW piW peW iDeg eDeg logRows codeLen codeDim =
        .error .packingWidthMustDivideNumberOfRows) ∧
    ((∃ k, codeLen = 2^k) → (∃ k, iDeg = 2^k) → (∃ k, eDeg = 2^k) →
      pW ∣ 2^logRows → piW ∣ 2^logRows →
      (¬(piW ∣ codeDim) ∨ ¬(peW ∣ codeDim)) →
      tensorPCSNew pW piW peW iDeg eDeg logRows codeLen codeDim =
        .error .packingWidthMustDivideCodeDimension) ∧
    ((∃ k, codeLen = 2^k) → (∃ k, iDeg = 2^k) → (∃ k, eDeg = 2^k) →
      pW ∣ 2^logRows → piW ∣ 2^logRows → piW ∣ codeDim → peW ∣ codeDim →
      tensorPCSNew pW piW peW iDeg eDeg logRows codeLen codeDim = .ok ()) := by
  have hp : ∀ n, (∃ k, n = 2^k) → isPow2 n = true := fun n h => (isPow2_iff n).mpr h
  have hnp : ∀ n, (¬∃ k, n = 2^k) → isPow2 n = false := fun n h => by
    cases hc : isPow2 n
    · rfl
    · exact absurd ((isPow2_iff n).mp hc) h
  refine ⟨?_, ?_, ?_, ?_, ?_⟩
  · intro h
    simp [tensorPCSNew, hnp codeLen h]
  · intro hc hde
    rcases hde with h | h
    · simp [tensorPCSNew, hp codeLen hc, hnp iDeg h]
    · cases hc2 : isPow2 iDeg
      · simp [tensorPCSNew, hp codeLen hc, hc2]
      · simp [tensorPCSNew, hp codeLen hc, hc2, hnp eDeg h]
  · intro hc hi he hd
    rcases hd with h | h
    · have hm : 2^logRows % pW ≠ 0 := fun hz => h ((dvd_iff_mod pW _).mpr hz)
      simp [tensorPCSNew, hp codeLen hc, hp iDeg hi, hp eDeg he, hm]
    · have hm2 : 2^logRows % piW ≠ 0 := fun hz => h ((dvd_iff_mod piW _).mpr hz)
      by_cases hz1 : 2^logRows % pW = 0
      · simp [tensorPCSNew, hp codeLen hc, hp iDeg hi, hp eDeg he, hz1, hm2]
      · simp [tensorPCSNew, hp codeLen hc, hp iDeg hi, hp eDeg he, hz1]
  · intro hc hi he hd1 hd2 hd
    have hz1 : 2^logRows % pW = 0 := (dvd_iff_mod pW _).mp hd1
    have hz2 : 2^logRows % piW = 0 := (dvd_iff_mod piW _).mp hd2
    rcases hd with h | h
    · have hm : codeDim % piW ≠ 0 := fun hz => h ((dvd_iff_mod piW _).mpr hz)
      simp [tensorPCSNew, hp codeLen hc, hp iDeg hi, hp eDeg he, hz1, hz2, hm]
    · have hm2 : codeDim % peW ≠ 0 := fun hz => h ((dvd_iff_mod peW _).mpr hz)
      by_cases hz3 : codeDim % piW = 0
      · simp [tensorPCSNew, hp codeLen hc, hp iDeg hi, hp eDeg he, hz1, hz2, hz3, hm2]
      · simp [tensorPCSNew, hp codeLen hc, hp iDeg hi, hp eDeg he, hz1, hz2, hz3]
  · intro hc hi he hd1 hd2 hd3 hd4
    simp [tensorPCSNew, hp codeLen hc, hp iDeg hi, hp eDeg he,
      (dvd_iff_mod pW _).mp hd1, (dvd_iff_mod piW _).mp hd2,
      (dvd_iff_mod piW _).mp hd3, (dvd_iff_mod peW _).mp hd4]

theorem tensorPCSNew_spec_witness :
    tensorPCSNew 1 1 1 2 4 3 8 4 = .ok () ∧
    tensorPCSNew 1 1 1 2 4 3 3 4 = .error .codeLengthPowerOfTwoRequired :=
  ⟨(tensorPCSNew_spec 1 1 1 2 4 3 8 4).2.2.2.2 ⟨3, rfl⟩ ⟨1, rfl⟩ ⟨2, rfl⟩
      (one_dvd _) (one_dvd _) (one_dvd _) (one_dvd _),
    (tensorPCSNew_spec 1 1 1 2 4 3 3 4).1 three_not_pow2⟩

/-! #### Claims about the evaluation protocol -/

/-- Claim C3: in `verify_evaluation`, once the earlier checks pass, the
mixed polynomial's evaluation at the low half of the query is compared
against `Σᵢ cᵢ · valuesᵢ` formed from the resampled mixing coefficients: a
mismatch yields exactly `VerificationError::IncorrectEvaluation`, and on a
match that error is never returned (the remaining steps can only produce
encode, vector-commit or `IncorrectPartialEvaluation` failures). -/
theorem verify_incorrectEvaluation_spec {F St V : Type} [CommRing F] [DecidableEq F]
    (pp : PCSParams) (ch : Challenger F St)
    (encodeExt : List F → Except Unit (List F))
    (vcsVerify : Nat → V → List (List F) → Except Unit Unit)
    (transposeCol : List F → List (List F))
    (st0 : St) (query : List F) (proof : VProof F V) (values : List F)
    (hvals : values.length = proof.nPolys)
    (hq : query.length = pp.nVars)
    (hshape : checkProofShape pp proof = .ok ()) :
    (mleEvaluate proof.mixedTPrime (query.take pp.logNCols) ≠
        innerProduct values
          ((tensorExpansion (ch.sampleVec st0 (log2Ceil proof.nPolys)).1).take proof.nPolys) →
      (verifyEvaluation pp ch encodeExt vcsVerify transposeCol st0 query proof values).1 =
        .error (.verification .incorrectEvaluation)) ∧
    (mleEvaluate proof.mixedTPrime (query.take pp.logNCols) =
        innerProduct values
          ((tensorExpansion (ch.sampleVec st0 (log2Ceil proof.nPolys)).1).take proof.nPolys) →
      (verifyEvaluation pp ch encodeExt vcsVerify transposeCol st0 query proof values).1 ≠
        .error (.verification .incorrectEvaluation)) := by
  constructor
  · intro hne
    simp [verifyEvaluation, hvals, hq, hshape, hne]
  · intro heq hcon
    rcases henc : encodeExt proof.mixedTPrime.evals with u | uP
    · simp [verifyEvaluation, hvals, hq, hshape, heq, henc] at hcon
    · rcases hvc : verifyColumns ch vcsVerify pp.codeLenBits
        (ch.observeSlice (ch.sampleVec st0 (log2Ceil proof.nPolys)).2
          proof.mixedTPrime.evals) proof.vcsProofs with ⟨r, st3⟩
      cases r with
      | error e2 =>
        have he2 := verifyColumns_error ch vcsVerify pp.codeLenBits
          proof.vcsProofs _ e2 st3 hvc
        subst he2
        simp [verifyEvaluation, hvals, hq, hshape, heq, henc, hvc] at hcon
      | ok columns =>
        simp [verifyEvaluation, hvals, hq, hshape, heq, henc, hvc] at hcon
        have hfin := checkColumnTests_error
          ((tensorExpansion (ch.sampleVec st0 (log2Ceil proof.nPolys)).1).take proof.nPolys)
          (tensorExpansion (query.drop pp.logNCols))
          (columnTests (2^pp.logBlockSize) uP transposeCol columns) _ hcon
        exact VerErr.noConfusion (PcsError.verification.inj hfin)

/-- Event-logging challenger over the integers: each operation appends a
tag to the state, so the state records what was sampled and observed. -/
def chLog : Challenger Int (List Nat) :=
  ⟨fun st k => (List.replicate k 0, st ++ [k]),
   fun st k => (0, st ++ [100 + k]),
   fun st _ => st ++ [999]⟩

def ppW3 : PCSParams := ⟨0, 0, 0, 1, 0⟩

def proofW3 : VProof Int Unit := ⟨1, ⟨0, [5]⟩, []⟩

theorem verify_incorrectEvaluation_spec_witness :
    (verifyEvaluation ppW3 chLog (fun l => .ok l) (fun _ _ _ => .ok ()) (fun c => [c])
      [] [] proofW3 [3]).1 = .error (.verification .incorrectEvaluation) :=
  (verify_incorrectEvaluation_spec ppW3 chLog (fun l => .ok l) (fun _ _ _ => .ok ())
    (fun c => [c]) [] [] proofW3 [3] rfl rfl rfl).1 (by decide)

/-- Claim C8 (amended): when the values-length and query-length checks
pass and the proof shape is invalid, `verify_evaluation` returns the shape
error — but only after resampling the `⌈log₂ n_polys⌉` mixing challenges:
the returned challenger state is the state after `sample_vec`, not the
initial one. The claim's assertion that the shape check precedes the
sampling is refuted by `verify_shape_sampling_cex`. -/
theorem verify_shape_error_spec {F St V : Type} [CommRing F] [DecidableEq F]
    (pp : PCSParams) (ch : Challenger F St)
    (encodeExt : List F → Except Unit (List F))
    (vcsVerify : Nat → V → List (List F) → Except Unit Unit)
    (transposeCol : List F → List (List F))
    (st0 : St) (query : List F) (proof : VProof F V) (values : List F)
    (hvals : values.length = proof.nPolys)
    (hq : query.length = pp.nVars) (e : PcsError)
    (hshape : checkProofShape pp proof = .error e) :
    verifyEvaluation pp ch encodeExt vcsVerify transposeCol st0 query proof values =
      (.error e, (ch.sampleVec st0 (log2Ceil proof.nPolys)).2) := by
  simp [verifyEvaluation, hvals, hq, hshape]

def ppW8 : PCSParams := ⟨0, 0, 0, 2, 1⟩

def proofW8 : VProof Int Unit := ⟨2, ⟨0, [1]⟩, []⟩

/-- With the logging challenger, a shape-invalid proof (no opening proofs
while one test query is required) makes `verify_evaluation` return the
shape error with a changed challenger state `[1]`: one `sample_vec` of one
mixing challenge happened before the shape check, refuting the claim that
no mixing challenge is sampled. -/
theorem verify_shape_sampling_cex :
    verifyEvaluation ppW8 chLog (fun l => .ok l) (fun _ _ _ => .ok ()) (fun c => [c])
        [] [] proofW8 [0, 0] =
      (.error (.verification (.numberOfOpeningProofs 1)), [1]) ∧
    ([1] : List Nat) ≠ ([] : List Nat) := by
  have h0 : log2Ceil 2 = 1 := by
    rw [log2Ceil, if_neg (by omega), show (2:Nat) - 1 = 1 from rfl,
      show Nat.log2 1 = 0 from log2_two_pow 0]
  constructor
  · simp [verifyEvaluation, h0, chLog, ppW8, proofW8, checkProofShape,
      PCSParams.nVars, PCSParams.logNCols]
  · decide

theorem verify_shape_error_spec_witness :
    verifyEvaluation ppW8 chLog (fun l => .ok l) (fun _ _ _ => .ok ()) (fun c => [c])
        [] [] proofW8 [0, 0] =
      (.error (.verification (.numberOfOpeningProofs 1)),
        (chLog.sampleVec [] (log2Ceil proofW8.nPolys)).2) :=
  verify_shape_error_spec ppW8 chLog (fun l => .ok l) (fun _ _ _ => .ok ()) (fun c => [c])
    [] [] proofW8 [0, 0] rfl rfl (.verification (.numberOfOpeningProofs 1)) rfl

/-- Claim C10: both `prove_evaluation` and `verify_evaluation` fail with
`IncorrectQuerySize{expected = log_rows + log_cols}` whenever the query
length differs from `n_vars() = log_rows + (dim_bits + log_block_size)`,
provided the respective earlier batch-size checks pass. -/
theorem incorrectQuerySize_spec {F St V M : Type} [CommRing F] [DecidableEq F]
    (pp : PCSParams) (ch : Challenger F St)
    (encodeExt : List F → Except Unit (List F))
    (vcsVerify : Nat → V → List (List F) → Except Unit Unit)
    (transposeCol : List F → List (List F))
    (evalPartialHigh : MLE F → List F → Except Unit (MLE F))
    (vcsProve : Nat → Except Unit V) (rowSlice : M → Nat → List F)
    (st0 : St) (query : List F) (proof : VProof F V) (values : List F)
    (mats : List M) (polys : List (MLE F)) :
    (values.length = proof.nPolys →
      query.length ≠ pp.logRows + (pp.dimBits + pp.logBlockSize) →
      (verifyEvaluation pp ch encodeExt vcsVerify transposeCol st0 query proof values).1 =
        .error (.incorrectQuerySize (pp.logRows + (pp.dimBits + pp.logBlockSize)))) ∧
    (mats.length = polys.length →
      query.length ≠ pp.logRows + (pp.dimBits + pp.logBlockSize) →
      (proveEvaluation pp ch evalPartialHigh vcsProve rowSlice st0 mats polys query).1 =
        .error (.incorrectQuerySize (pp.logRows + (pp.dimBits + pp.logBlockSize)))) := by
  constructor
  · intro hvals hq
    simp [verifyEvaluation, hvals, hq, PCSParams.nVars, PCSParams.logNCols]
  · intro hmats hq
    simp [proveEvaluation, hmats, hq, PCSParams.nVars, PCSParams.logNCols]

theorem incorrectQuerySize_spec_witness :
    (verifyEvaluation ppW3 chLog (fun l => .ok l) (fun _ _ _ => .ok ()) (fun c => [c])
        [] [(0 : Int)] proofW3 [3]).1 = .error (.incorrectQuerySize 0) ∧
    (proveEvaluation ppW3 chLog (fun t _ => .ok t) (fun _ => .ok (() : Unit))
        (fun (_ : Unit) _ => []) [] [] [] [(0 : Int)]).1 =
      .error (.incorrectQuerySize 0) :=
  ⟨(incorrectQuerySize_spec ppW3 chLog (fun l => .ok l) (fun _ _ _ => .ok ())
      (fun c => [c]) (fun t _ => .ok t) (fun _ => .ok (() : Unit)) (fun (_ : Unit) _ => [])
      [] [(0 : Int)] proofW3 [3] [] []).1 rfl (by decide),
    (incorrectQuerySize_spec ppW3 chLog (fun l => .ok l) (fun _ _ _ => .ok ())
      (fun c => [c]) (fun t _ => .ok t) (fun _ => .ok (() : Unit)) (fun (_ : Unit) _ => [])
      [] [(0 : Int)] proofW3 [3] [] []).2 rfl (by decide)⟩

end Binius
